import Mathlib

/-!
Verification of the MessageBoard core against its specification.

The development shallowly embeds the JavaScript source:

* `src/src/middleware/rateLimiter.js` — the `MessageRateLimiter` class with its
  Lua check-and-increment script (`luaCheckAndIncr`, `checkAndRecordRequest`,
  `checkRateLimit`, `getUserStatus`, `getKey`).
* `src/models/Message.js` — the `messageSchema.pre('save')` linking middleware
  and `post('save')` post-count middleware (`saveNewMessage`, `applyPostSave`,
  `findLatestMessage`).
* `src/services/messageService.js` — `postMessage`, `deleteMessage`,
  `updateMessage`.

JavaScript strings are modelled as `List Char`; Redis is modelled as a map
from window-scoped keys to a count and an expiry time; MongoDB collections are
modelled as Lean lists of records; timestamps are natural-number milliseconds.
Exceptions are modelled with `Except`.  All operations are sequential: each
store round trip is one step of a pure state transformer.
-/

namespace MessageBoard

/-- Rate-limiter configuration (`environment.rateLimit`): window length in
milliseconds and the maximum number of requests per window.  The environment
file defaults these to 3600000 and 10 and falls back to those defaults whenever
the configured value parses to `0`, so both are at least 1 in any real run. -/
structure Config where
  windowMs : Nat
  maxRequests : Nat
  deriving Repr, DecidableEq

/-- The Redis key `rate_limit:user:${userId}:${windowStart}` is determined by
the user id and the window index; we model it as the pair. -/
abbrev CKey := Nat × Nat

/-- The Redis counter store: each key optionally holds a count together with
the absolute expiry time in milliseconds (set via `EXPIRE`). -/
abbrev Counters := CKey → Option (Nat × Nat)

/-- Empty counter store. -/
def cEmpty : Counters := fun _ => none

/-- Write a (count, expiry) entry at a key (Redis `SET`-like update). -/
def cSet (k : CKey) (v : Nat × Nat) (cs : Counters) : Counters :=
  fun k2 => if k2 = k then some v else cs k2

/-- The count stored at a key, `0` when the key is absent (as in
`await redis.get(key) || 0`). -/
def cCount (k : CKey) (cs : Counters) : Nat :=
  ((cs k).map Prod.fst).getD 0

/-- `getKey(userId)`: the window index is `Math.floor(Date.now() / windowMs)`. -/
def getKey (windowMs now uid : Nat) : CKey := (uid, now / windowMs)

/-- Remaining time to live of a key in whole seconds (Redis `TTL`), from its
absolute expiry time and the current time. -/
def ttlSecs (exp now : Nat) : Int := ((exp - now) / 1000 : Nat)

/-- Shallow embedding of the Lua script in `checkAndRecordRequest`: if the key
holds a count at or above the maximum, return it unchanged as limited;
otherwise `INCR` (a fresh key starts at 1 and gets an `EXPIRE` of the window
length), and report limited when the incremented count exceeds the maximum.
Returns `(count, isLimited, ttlSeconds)` and the updated store; the whole
script is one atomic Redis round trip. -/
def luaCheckAndIncr (maxRequests ttlSeconds now : Nat) (k : CKey) (cs : Counters) :
    (Nat × Bool × Int) × Counters :=
  match cs k with
  | some (c, exp) =>
    if c ≥ maxRequests then
      ((c, true, ttlSecs exp now), cs)
    else
      let c2 := c + 1
      let exp2 := if c2 = 1 then now + ttlSeconds * 1000 else exp
      ((c2, decide (c2 > maxRequests), ttlSecs exp2 now), cSet k (c2, exp2) cs)
  | none =>
    let exp := now + ttlSeconds * 1000
    ((1, decide (1 > maxRequests), ttlSecs exp now), cSet k (1, exp) cs)

/-- Availability of the Redis client as seen by one rate-limiter call:
`ok` (client present, commands succeed), `unavailable` (no client, the
`if (!redis)` guard), or `failing` (commands throw, the `catch` path). -/
inductive RedisMode
  | ok
  | unavailable
  | failing
  deriving Repr, DecidableEq

/-- Result record of `checkAndRecordRequest`. -/
structure RLResult where
  isLimited : Bool
  remainingRequests : Int
  resetTime : Int
  windowMs : Nat
  currentCount : Nat
  success : Bool
  deriving Repr, DecidableEq

/-- Result record of `checkRateLimit` (no `success` field). -/
structure RLStatus where
  isLimited : Bool
  remainingRequests : Int
  resetTime : Int
  windowMs : Nat
  currentCount : Nat
  deriving Repr, DecidableEq

/-- `MessageRateLimiter.checkAndRecordRequest(userId)`.  With a working client
it runs the atomic Lua script and derives `remaining = max(0, max - count)` and
a reset time from the key's TTL.  When the client is missing, or when the Redis
call throws, it returns the fail-open fallback: allowed, `remaining = max - 1`,
reset one window from now, count 1 — without touching the store and without
retrying (the fallback is a plain return, not a second store call). -/
def checkAndRecordRequest (cfg : Config) (mode : RedisMode) (now uid : Nat)
    (cs : Counters) : RLResult × Counters :=
  match mode with
  | .unavailable =>
    ({ isLimited := false, remainingRequests := (cfg.maxRequests : Int) - 1,
       resetTime := (now : Int) + cfg.windowMs, windowMs := cfg.windowMs,
       currentCount := 1, success := true }, cs)
  | .failing =>
    ({ isLimited := false, remainingRequests := (cfg.maxRequests : Int) - 1,
       resetTime := (now : Int) + cfg.windowMs, windowMs := cfg.windowMs,
       currentCount := 1, success := true }, cs)
  | .ok =>
    let key := getKey cfg.windowMs now uid
    let ttlSeconds := (cfg.windowMs + 999) / 1000
    let r := luaCheckAndIncr cfg.maxRequests ttlSeconds now key cs
    ({ isLimited := r.1.2.1,
       remainingRequests := max 0 ((cfg.maxRequests : Int) - r.1.1),
       resetTime := (now : Int) + r.1.2.2 * 1000,
       windowMs := cfg.windowMs,
       currentCount := r.1.1,
       success := !r.1.2.1 }, r.2)

/-- `MessageRateLimiter.checkRateLimit(userId)`: reads the current count with
`GET` (0 when absent) and the TTL, computing `remaining = max(0, max - count)`
without issuing any write.  The no-client and catch paths return a fresh-window
status.  The second component is the store after the call; the body only
reads, so it is returned unchanged. -/
def checkRateLimit (cfg : Config) (mode : RedisMode) (now uid : Nat)
    (cs : Counters) : RLStatus × Counters :=
  match mode with
  | .unavailable =>
    ({ isLimited := false, remainingRequests := (cfg.maxRequests : Int),
       resetTime := (now : Int) + cfg.windowMs, windowMs := cfg.windowMs,
       currentCount := 0 }, cs)
  | .failing =>
    ({ isLimited := false, remainingRequests := (cfg.maxRequests : Int),
       resetTime := (now : Int) + cfg.windowMs, windowMs := cfg.windowMs,
       currentCount := 0 }, cs)
  | .ok =>
    let key := getKey cfg.windowMs now uid
    let currentCount := cCount key cs
    let ttl : Int := match cs key with
      | some (_, exp) => ttlSecs exp now
      | none => -2
    ({ isLimited := decide (currentCount ≥ cfg.maxRequests),
       remainingRequests := max 0 ((cfg.maxRequests : Int) - currentCount),
       resetTime := if ttl > 0 then (now : Int) + ttl * 1000
                    else (now : Int) + cfg.windowMs,
       windowMs := cfg.windowMs,
       currentCount := currentCount }, cs)

/-- `MessageRateLimiter.getUserStatus(userId)` simply delegates to
`checkRateLimit`. -/
def getUserStatus (cfg : Config) (mode : RedisMode) (now uid : Nat)
    (cs : Counters) : RLStatus × Counters :=
  checkRateLimit cfg mode now uid cs

/-- N sequential `checkAndRecordRequest` calls against the same user within one
window (the clock is held fixed, so all calls hit the same key), with a working
Redis client; returns the list of results and the final store. -/
def applyCalls (cfg : Config) (now uid : Nat) : Nat → Counters → List RLResult × Counters
  | 0, cs => ([], cs)
  | n + 1, cs =>
    let rc := checkAndRecordRequest cfg .ok now uid cs
    let rest := applyCalls cfg now uid n rc.2
    (rc.1 :: rest.1, rest.2)

theorem cCount_cSet_same (k : CKey) (v : Nat × Nat) (cs : Counters) :
    cCount k (cSet k v cs) = v.1 := by
  simp [cCount, cSet]

/-- One `.ok` call moves the stored count from `p` to `p` when already at the
limit, and to `p + 1` otherwise. -/
theorem checkAndRecordRequest_count_step (cfg : Config) (hmax : 1 ≤ cfg.maxRequests)
    (now uid : Nat) (cs : Counters) :
    cCount (getKey cfg.windowMs now uid) (checkAndRecordRequest cfg .ok now uid cs).2 =
      (if cCount (getKey cfg.windowMs now uid) cs ≥ cfg.maxRequests then
        cCount (getKey cfg.windowMs now uid) cs
      else cCount (getKey cfg.windowMs now uid) cs + 1) := by
  set k := getKey cfg.windowMs now uid with hk
  simp only [checkAndRecordRequest, luaCheckAndIncr]
  cases h : cs k with
  | none =>
    have hne : cfg.maxRequests ≠ 0 := by omega
    simp [cCount, h, cSet, hne]
  | some ce =>
    obtain ⟨c, ex⟩ := ce
    by_cases hc : c ≥ cfg.maxRequests <;>
      simp [cCount, h, hc, cSet]

/-- One `.ok` call returns `success` iff the prior count was strictly under the
limit (for a positive limit), and `isLimited` is its negation. -/
theorem checkAndRecordRequest_success_step (cfg : Config) (hmax : 1 ≤ cfg.maxRequests)
    (now uid : Nat) (cs : Counters) :
    ((checkAndRecordRequest cfg .ok now uid cs).1.success = true ↔
      cCount (getKey cfg.windowMs now uid) cs < cfg.maxRequests) ∧
    (checkAndRecordRequest cfg .ok now uid cs).1.isLimited =
      !(checkAndRecordRequest cfg .ok now uid cs).1.success := by
  set k := getKey cfg.windowMs now uid with hk
  simp only [checkAndRecordRequest, luaCheckAndIncr]
  cases h : cs k with
  | none =>
    simp [cCount, h]
    omega
  | some ce =>
    obtain ⟨c, ex⟩ := ce
    by_cases hc : c ≥ cfg.maxRequests
    · simp [cCount, h, hc]
    · simp [cCount, h, hc]
      omega

/-- In every branch of `checkAndRecordRequest`, the returned `isLimited` flag
is the negation of `success` (the source sets `success: !isLimited`). -/
theorem checkAndRecordRequest_isLimited_not_success (cfg : Config) (mode : RedisMode)
    (now uid : Nat) (cs : Counters) :
    (checkAndRecordRequest cfg mode now uid cs).1.isLimited =
      !(checkAndRecordRequest cfg mode now uid cs).1.success := by
  cases mode <;> simp [checkAndRecordRequest]

theorem applyCalls_length (cfg : Config) (now uid : Nat) :
    ∀ (n : Nat) (cs : Counters), (applyCalls cfg now uid n cs).1.length = n := by
  intro n
  induction n with
  | zero => intro cs; simp [applyCalls]
  | succ n ih => intro cs; simp [applyCalls, ih]

theorem applyCalls_isLimited (cfg : Config) (now uid : Nat) :
    ∀ (n : Nat) (cs : Counters) (r : RLResult), r ∈ (applyCalls cfg now uid n cs).1 →
      r.isLimited = !r.success := by
  intro n
  induction n with
  | zero => intro cs r hr; simp [applyCalls] at hr
  | succ n ih =>
    intro cs r hr
    simp only [applyCalls, List.mem_cons] at hr
    rcases hr with hr | hr
    · subst hr; exact checkAndRecordRequest_isLimited_not_success cfg .ok now uid cs
    · exact ih _ r hr

/-- Final counter after `n` sequential atomic calls in one window, starting
from a prior count of at most the limit: exactly `min (prior + n) max`. -/
theorem applyCalls_final_count (cfg : Config) (hmax : 1 ≤ cfg.maxRequests) (now uid : Nat) :
    ∀ (n : Nat) (cs : Counters),
      cCount (getKey cfg.windowMs now uid) cs ≤ cfg.maxRequests →
      cCount (getKey cfg.windowMs now uid) (applyCalls cfg now uid n cs).2 =
        min (cCount (getKey cfg.windowMs now uid) cs + n) cfg.maxRequests := by
  intro n
  induction n with
  | zero => intro cs hp; simp [applyCalls]; omega
  | succ n ih =>
    intro cs hp
    simp only [applyCalls]
    have hstep := checkAndRecordRequest_count_step cfg hmax now uid cs
    by_cases hlt : cCount (getKey cfg.windowMs now uid) cs < cfg.maxRequests
    · have h2 : cCount (getKey cfg.windowMs now uid)
          (checkAndRecordRequest cfg .ok now uid cs).2 =
          cCount (getKey cfg.windowMs now uid) cs + 1 := by
        rw [hstep, if_neg (by omega)]
      rw [ih _ (by omega), h2]
      omega
    · have h2 : cCount (getKey cfg.windowMs now uid)
          (checkAndRecordRequest cfg .ok now uid cs).2 =
          cCount (getKey cfg.windowMs now uid) cs := by
        rw [hstep, if_pos (by omega)]
      rw [ih _ (by omega), h2]
      omega

/-- Number of successful results among `n` sequential atomic calls in one
window: exactly `min n (max - prior)`. -/
theorem applyCalls_success_count (cfg : Config) (hmax : 1 ≤ cfg.maxRequests) (now uid : Nat) :
    ∀ (n : Nat) (cs : Counters),
      cCount (getKey cfg.windowMs now uid) cs ≤ cfg.maxRequests →
      ((applyCalls cfg now uid n cs).1.countP (fun r => r.success)) =
        min n (cfg.maxRequests - cCount (getKey cfg.windowMs now uid) cs) := by
  intro n
  induction n with
  | zero => intro cs hp; simp [applyCalls]
  | succ n ih =>
    intro cs hp
    simp only [applyCalls, List.countP_cons]
    have hstep := checkAndRecordRequest_count_step cfg hmax now uid cs
    have hsucc := (checkAndRecordRequest_success_step cfg hmax now uid cs).1
    by_cases hlt : cCount (getKey cfg.windowMs now uid) cs < cfg.maxRequests
    · have h1 : (checkAndRecordRequest cfg .ok now uid cs).1.success = true := hsucc.mpr hlt
      have h2 : cCount (getKey cfg.windowMs now uid)
          (checkAndRecordRequest cfg .ok now uid cs).2 =
          cCount (getKey cfg.windowMs now uid) cs + 1 := by
        rw [hstep, if_neg (by omega)]
      rw [ih _ (by omega), h2, h1]
      simp
      omega
    · have h1 : (checkAndRecordRequest cfg .ok now uid cs).1.success = false := by
        cases hs : (checkAndRecordRequest cfg .ok now uid cs).1.success
        · rfl
        · exact absurd (hsucc.mp hs) hlt
      have h2 : cCount (getKey cfg.windowMs now uid)
          (checkAndRecordRequest cfg .ok now uid cs).2 =
          cCount (getKey cfg.windowMs now uid) cs := by
        rw [hstep, if_pos (by omega)]
      rw [ih _ (by omega), h2, h1]
      simp
      omega

/-- C1 (amended): the check and increment are a single atomic operation, so
`N` calls in one window against the same key starting from prior count
`p ≤ maxRequests` leave the counter at exactly `min (p + N) maxRequests` (the
claim's formula `min(N, p+N, maxRequests)` is off when `p > 0`; see the
counterexample).  In particular, starting from an empty store (count 0),
exactly `min N maxRequests` of the calls return allowed (`success = true`),
the remainder are reported rate-limited (`isLimited = !success`), and the
final counter equals `min N maxRequests`. -/
theorem checkAndRecordRequest_window_counts (cfg : Config) (now uid N : Nat)
    (cs : Counters) (hmax : 1 ≤ cfg.maxRequests)
    (hp : cCount (getKey cfg.windowMs now uid) cs ≤ cfg.maxRequests) :
    cCount (getKey cfg.windowMs now uid) (applyCalls cfg now uid N cs).2 =
      min (cCount (getKey cfg.windowMs now uid) cs + N) cfg.maxRequests ∧
    (applyCalls cfg now uid N cEmpty).1.length = N ∧
    (applyCalls cfg now uid N cEmpty).1.countP (fun r => r.success) =
      min N cfg.maxRequests ∧
    cCount (getKey cfg.windowMs now uid) (applyCalls cfg now uid N cEmpty).2 =
      min N cfg.maxRequests ∧
    ∀ r ∈ (applyCalls cfg now uid N cEmpty).1, r.isLimited = !r.success := by
  have hemp : cCount (getKey cfg.windowMs now uid) cEmpty = 0 := rfl
  refine ⟨applyCalls_final_count cfg hmax now uid N cs hp,
    applyCalls_length cfg now uid N cEmpty, ?_, ?_,
    applyCalls_isLimited cfg now uid N cEmpty⟩
  · rw [applyCalls_success_count cfg hmax now uid N cEmpty (by rw [hemp]; omega), hemp]
    omega
  · rw [applyCalls_final_count cfg hmax now uid N cEmpty (by rw [hemp]; omega), hemp]
    omega

/-- Witness for `checkAndRecordRequest_window_counts` at `max = 10`,
window 3600000 ms, `N = 13` calls from an empty store. -/
theorem checkAndRecordRequest_window_counts_witness :
    cCount (getKey 3600000 0 7) (applyCalls ⟨3600000, 10⟩ 0 7 13 cEmpty).2 =
      min (cCount (getKey 3600000 0 7) cEmpty + 13) 10 ∧
    (applyCalls ⟨3600000, 10⟩ 0 7 13 cEmpty).1.length = 13 ∧
    (applyCalls ⟨3600000, 10⟩ 0 7 13 cEmpty).1.countP (fun r => r.success) = min 13 10 ∧
    cCount (getKey 3600000 0 7) (applyCalls ⟨3600000, 10⟩ 0 7 13 cEmpty).2 = min 13 10 ∧
    ∀ r ∈ (applyCalls ⟨3600000, 10⟩ 0 7 13 cEmpty).1, r.isLimited = !r.success :=
  checkAndRecordRequest_window_counts ⟨3600000, 10⟩ 0 7 13 cEmpty (by decide) (by decide)

/-- C1, counterexample to the claim as stated: with `maxRequests = 10`, a prior
count of 1 and `N = 1` call, the final counter is 2, while the claimed formula
`min(N, priorCount + N, maxRequests) = min(1, 2, 10)` gives 1. -/
theorem checkAndRecordRequest_claim_formula_false :
    cCount (getKey 3600000 0 0)
      (applyCalls ⟨3600000, 10⟩ 0 0 1
        (cSet (getKey 3600000 0 0) (1, 3600000) cEmpty)).2 = 2 ∧
    min 1 (min (1 + 1) 10) ≠ 2 := by
  constructor
  · decide
  · decide

/-- C4: on Redis failure (`unavailable`: no client; `failing`: the command
threw), `checkAndRecordRequest` fails open: it reports the request allowed
with a synthesized `remaining = maxRequests - 1` and a reset time exactly one
window in the future, and the store is untouched — the single store
interaction is not retried. -/
theorem checkAndRecordRequest_fail_open (cfg : Config) (mode : RedisMode)
    (now uid : Nat) (cs : Counters) (hmode : mode ≠ RedisMode.ok) :
    (checkAndRecordRequest cfg mode now uid cs).1 =
      { isLimited := false, remainingRequests := (cfg.maxRequests : Int) - 1,
        resetTime := (now : Int) + cfg.windowMs, windowMs := cfg.windowMs,
        currentCount := 1, success := true } ∧
    (checkAndRecordRequest cfg mode now uid cs).2 = cs := by
  cases mode with
  | ok => exact absurd rfl hmode
  | unavailable => exact ⟨rfl, rfl⟩
  | failing => exact ⟨rfl, rfl⟩

/-- Witness for `checkAndRecordRequest_fail_open` with an unreachable store. -/
theorem checkAndRecordRequest_fail_open_witness :
    (checkAndRecordRequest ⟨3600000, 10⟩ .failing 5 3 cEmpty).1 =
      { isLimited := false, remainingRequests := (10 : Int) - 1,
        resetTime := (5 : Int) + 3600000, windowMs := 3600000,
        currentCount := 1, success := true } ∧
    (checkAndRecordRequest ⟨3600000, 10⟩ .failing 5 3 cEmpty).2 = cEmpty :=
  checkAndRecordRequest_fail_open ⟨3600000, 10⟩ .failing 5 3 cEmpty (by decide)

/-- C9: `checkRateLimit` (and its aliases `getUserStatus` and the service's
`getRateLimitStatus`) never writes to the counter store; within one window its
`currentCount` and `remainingRequests` are stable across repeated calls absent
other writers, and `remaining = max(0, maxRequests - currentCount)`. -/
theorem checkRateLimit_read_only (cfg : Config) (mode : RedisMode)
    (now1 now2 uid : Nat) (cs : Counters)
    (hwin : now1 / cfg.windowMs = now2 / cfg.windowMs) :
    (checkRateLimit cfg mode now1 uid cs).2 = cs ∧
    getUserStatus cfg mode now1 uid cs = checkRateLimit cfg mode now1 uid cs ∧
    (checkRateLimit cfg mode now1 uid cs).1.currentCount =
      (checkRateLimit cfg mode now2 uid cs).1.currentCount ∧
    (checkRateLimit cfg mode now1 uid cs).1.remainingRequests =
      (checkRateLimit cfg mode now2 uid cs).1.remainingRequests ∧
    (checkRateLimit cfg mode now1 uid cs).1.remainingRequests =
      max 0 ((cfg.maxRequests : Int) -
        (checkRateLimit cfg mode now1 uid cs).1.currentCount) := by
  cases mode with
  | ok =>
    refine ⟨rfl, rfl, ?_, ?_, ?_⟩ <;>
      simp [checkRateLimit, getKey, hwin]
  | unavailable =>
    refine ⟨rfl, rfl, rfl, rfl, ?_⟩
    simp [checkRateLimit]
  | failing =>
    refine ⟨rfl, rfl, rfl, rfl, ?_⟩
    simp [checkRateLimit]

/-- Witness for `checkRateLimit_read_only`: two reads at distinct times in the
same window, against a store holding a count of 4. -/
theorem checkRateLimit_read_only_witness :
    (checkRateLimit ⟨3600000, 10⟩ .ok 1000 3
        (cSet (getKey 3600000 1000 3) (4, 3600000) cEmpty)).2 =
      cSet (getKey 3600000 1000 3) (4, 3600000) cEmpty ∧
    getUserStatus ⟨3600000, 10⟩ .ok 1000 3
        (cSet (getKey 3600000 1000 3) (4, 3600000) cEmpty) =
      checkRateLimit ⟨3600000, 10⟩ .ok 1000 3
        (cSet (getKey 3600000 1000 3) (4, 3600000) cEmpty) ∧
    (checkRateLimit ⟨3600000, 10⟩ .ok 1000 3
        (cSet (getKey 3600000 1000 3) (4, 3600000) cEmpty)).1.currentCount =
      (checkRateLimit ⟨3600000, 10⟩ .ok 2000 3
        (cSet (getKey 3600000 1000 3) (4, 3600000) cEmpty)).1.currentCount ∧
    (checkRateLimit ⟨3600000, 10⟩ .ok 1000 3
        (cSet (getKey 3600000 1000 3) (4, 3600000) cEmpty)).1.remainingRequests =
      (checkRateLimit ⟨3600000, 10⟩ .ok 2000 3
        (cSet (getKey 3600000 1000 3) (4, 3600000) cEmpty)).1.remainingRequests ∧
    (checkRateLimit ⟨3600000, 10⟩ .ok 1000 3
        (cSet (getKey 3600000 1000 3) (4, 3600000) cEmpty)).1.remainingRequests =
      max 0 ((10 : Int) -
        (checkRateLimit ⟨3600000, 10⟩ .ok 1000 3
          (cSet (getKey 3600000 1000 3) (4, 3600000) cEmpty)).1.currentCount) :=
  checkRateLimit_read_only ⟨3600000, 10⟩ .ok 1000 2000 3
    (cSet (getKey 3600000 1000 3) (4, 3600000) cEmpty) (by decide)

/-- JavaScript `String.prototype.trim` on the char-list model of strings. -/
def jsTrim (l : List Char) : List Char :=
  ((l.dropWhile Char.isWhitespace).reverse.dropWhile Char.isWhitespace).reverse

/-- A document of the `Message` collection (`src/models/Message.js`): body,
owner, creation time, and the nullable previous/next links of the per-user
chain.  Ids are the natural numbers MongoDB object ids are modelled by. -/
structure Msg where
  id : Nat
  body : List Char
  user : Nat
  createdAt : Nat
  previousMessage : Option Nat
  nextMessage : Option Nat
  deriving Repr, DecidableEq

/-- A document of the `User` collection, restricted to the fields the core
mutates: `postCount` (an integer, `$inc`-updated) and `lastPostAt`. -/
structure UserRec where
  id : Nat
  postCount : Int
  lastPostAt : Option Nat
  deriving Repr, DecidableEq

/-- The full store state: the two MongoDB collections, the Redis counters, the
current clock (ms), and the next fresh object id. -/
structure St where
  msgs : List Msg
  users : List UserRec
  counters : Counters
  now : Nat
  nextId : Nat

/-- `Message.findById` / `findOne({_id})`. -/
def findById (i : Nat) (db : List Msg) : Option Msg :=
  db.find? (fun m => m.id == i)

/-- `User.findById`. -/
def findUser (i : Nat) (us : List UserRec) : Option UserRec :=
  us.find? (fun u => u.id == i)

/-- `Message.findByIdAndUpdate(i, fields)`: apply the field update to the
document with the given id. -/
def updMsg (i : Nat) (f : Msg → Msg) (db : List Msg) : List Msg :=
  db.map (fun m => if m.id = i then f m else m)

/-- `User.findByIdAndUpdate(i, fields)`. -/
def updUser (i : Nat) (f : UserRec → UserRec) (us : List UserRec) : List UserRec :=
  us.map (fun u => if u.id = i then f u else u)

/-- One step of scanning for the owner's most recent message: keep the
candidate with the greater creation time among the owner's documents. -/
def latestPick (uid : Nat) (acc : Option Msg) (m : Msg) : Option Msg :=
  if m.user = uid then
    match acc with
    | none => some m
    | some b => if m.createdAt > b.createdAt then some m else some b
  else acc

/-- `Message.findOne({ user }).sort({ createdAt: -1 })`: the owner's message
with the greatest creation time (ties keep the earlier document; in every
modelled run creation times of one user's messages are distinct). -/
def findLatestMessage (uid : Nat) (db : List Msg) : Option Msg :=
  db.foldl (latestPick uid) none

/-- The `messageSchema.pre('save')` linking middleware followed by the insert
of the new document: find the owner's latest message; if one exists, set the
new message's `previousMessage` to its id and its `nextMessage` to the new
message's id; then persist the new document.  Returns the saved document and
the updated collection.  (The middleware's referenced-user existence check is
performed by the caller `postMessage` before every modelled save.) -/
def saveNewMessage (m : Msg) (db : List Msg) : Msg × List Msg :=
  match findLatestMessage m.user db with
  | none => (m, db ++ [m])
  | some tl =>
    let m2 := { m with previousMessage := some tl.id }
    (m2, updMsg tl.id (fun x => { x with nextMessage := some m.id }) db ++ [m2])

/-- The `messageSchema.post('save')` middleware: increment the owner's
`postCount` and set `lastPostAt` to the current time. -/
def applyPostSave (uid now : Nat) (us : List UserRec) : List UserRec :=
  updUser uid (fun u => { u with postCount := u.postCount + 1, lastPostAt := some now }) us

/-- The error kinds `postMessage`/`deleteMessage`/`updateMessage` can throw to
their caller (`RateLimitError` is caught inside `postMessage` itself and
converted into a returned failure payload). -/
inductive Err
  | validation
  | notFound
  | internal
  deriving Repr, DecidableEq

/-- The `postMessage` response payload `{message, rateLimitInfo, success,
error}`.  `rateLimitInfo` is optional here so that "populated" is a provable
property rather than a typing artifact. -/
structure PostResult where
  message : Option Msg
  rateLimitInfo : Option RLStatus
  success : Bool
  error : Option (List Char)
  deriving Repr, DecidableEq

/-- The message of the `RateLimitError` thrown (and then reported) by
`postMessage`. -/
def rateLimitErrMsg : List Char :=
  "Rate limit exceeded. Maximum 10 messages per hour.".data

/-- Injected environment outcomes for one `postMessage` call: the Redis
availability seen by its rate-limiter calls, and whether the message insert
(`message.save()`) succeeds or fails with a store error. -/
structure Env where
  mode : RedisMode
  insertOk : Bool
  deriving Repr, DecidableEq

/-- `MessageService.postMessage(userId, body)`, modelled as a state
transformer returning `Except Err PostResult` (thrown errors) and the new
state.  Step order follows the source: validation (`!userId`, `!body`, empty
trimmed body, raw `body.length > 1000`), then the user-existence check, then
the atomic `checkAndRecordRequest`, then the insert (with the pre/post save
middleware), then a read-only `checkRateLimit` for the response payload.  A
thrown `RateLimitError` is caught and turned into a returned failure payload
carrying a fresh `checkRateLimit` status. -/
def postMessage (cfg : Config) (env : Env) (userId : Option Nat)
    (body : Option (List Char)) (st : St) : Except Err PostResult × St :=
  match userId with
  | none => (.error .validation, st)
  | some uid =>
    match body with
    | none => (.error .validation, st)
    | some b =>
      if b = [] then (.error .validation, st)
      else if (jsTrim b).length = 0 then (.error .validation, st)
      else if b.length > 1000 then (.error .validation, st)
      else
        match findUser uid st.users with
        | none => (.error .notFound, st)
        | some _ =>
          let rl := checkAndRecordRequest cfg env.mode st.now uid st.counters
          let st1 : St := { st with counters := rl.2 }
          if rl.1.isLimited then
            let status := checkRateLimit cfg env.mode st1.now uid st1.counters
            (.ok { message := none, rateLimitInfo := some status.1,
                   success := false, error := some rateLimitErrMsg }, st1)
          else if env.insertOk then
            let m : Msg := { id := st1.nextId, body := jsTrim b, user := uid,
                             createdAt := st1.now, previousMessage := none,
                             nextMessage := none }
            let sv := saveNewMessage m st1.msgs
            let st2 : St :=
              { st1 with
                msgs := sv.2,
                users := applyPostSave uid st1.now st1.users,
                nextId := st1.nextId + 1 }
            let status := checkRateLimit cfg env.mode st2.now uid st2.counters
            (.ok { message := some sv.1, rateLimitInfo := some status.1,
                   success := true, error := none }, st2)
          else
            (.error .internal, st1)

/-- `MessageService.deleteMessage(messageId)`: fetch the message (missing id
throws `NotFoundError`); relink its neighbours exactly as the source's three
`findByIdAndUpdate` branches do; decrement the owner's `postCount`; delete the
document; return `true`. -/
def deleteMessage (messageId : Option Nat) (st : St) : Except Err Bool × St :=
  match messageId with
  | none => (.error .validation, st)
  | some i =>
    match findById i st.msgs with
    | none => (.error .notFound, st)
    | some m =>
      let msgs1 :=
        match m.previousMessage, m.nextMessage with
        | some p, some n =>
          updMsg n (fun x => { x with previousMessage := some p })
            (updMsg p (fun x => { x with nextMessage := some n }) st.msgs)
        | some p, none =>
          updMsg p (fun x => { x with nextMessage := none }) st.msgs
        | none, some n =>
          updMsg n (fun x => { x with previousMessage := none }) st.msgs
        | none, none => st.msgs
      let users1 := updUser m.user (fun u => { u with postCount := u.postCount - 1 }) st.users
      let msgs2 := msgs1.eraseP (fun x => x.id == i)
      (.ok true, { st with msgs := msgs2, users := users1 })

/-- `MessageService.updateMessage(messageId, newBody)`: the same four
validation checks as `postMessage`, then a single `findByIdAndUpdate` setting
only `body` to the trimmed new body, returning the updated document (missing
id throws `NotFoundError`). -/
def updateMessage (messageId : Option Nat) (newBody : Option (List Char))
    (st : St) : Except Err Msg × St :=
  match messageId with
  | none => (.error .validation, st)
  | some i =>
    match newBody with
    | none => (.error .validation, st)
    | some b =>
      if b = [] then (.error .validation, st)
      else if (jsTrim b).length = 0 then (.error .validation, st)
      else if b.length > 1000 then (.error .validation, st)
      else
        match findById i st.msgs with
        | none => (.error .notFound, st)
        | some m =>
          (.ok { m with body := jsTrim b },
           { st with msgs := updMsg i (fun x => { x with body := jsTrim b }) st.msgs })

/-- Initial state: the given users exist with `postCount = 0` and no
`lastPostAt` (the schema defaults), no messages, an empty counter store. -/
def initSt (uids : List Nat) : St :=
  { msgs := [],
    users := uids.map (fun u => { id := u, postCount := 0, lastPostAt := none }),
    counters := cEmpty, now := 0, nextId := 0 }

theorem jsTrim_nil : jsTrim [] = [] := rfl

/-- Trimming strips exactly the trailing space off a body of `n + 1` letters
followed by one space. -/
theorem jsTrim_a_space (n : Nat) :
    jsTrim (List.replicate (n + 1) 'a' ++ [' ']) = List.replicate (n + 1) 'a' := by
  have ha : 'a'.isWhitespace = false := by decide
  have hs : ' '.isWhitespace = true := by decide
  have h1 : List.dropWhile Char.isWhitespace (List.replicate (n + 1) 'a' ++ [' ']) =
      List.replicate (n + 1) 'a' ++ [' '] := by
    rw [List.replicate_succ, List.cons_append, List.dropWhile_cons, ha]
    simp
  have h2 : (List.replicate (n + 1) 'a' ++ [' ']).reverse =
      ' ' :: List.replicate (n + 1) 'a' := by
    rw [List.reverse_append, List.reverse_replicate]
    rfl
  have h4 : List.dropWhile Char.isWhitespace (List.replicate (n + 1) 'a') =
      List.replicate (n + 1) 'a' := by
    rw [List.replicate_succ, List.dropWhile_cons, ha]
    simp
  unfold jsTrim
  rw [h1, h2, List.dropWhile_cons, hs]
  simp [h4, List.reverse_replicate]

/-- C5 (amended): `postMessage` raises `ValidationError` iff the owner id is
absent, the body is absent, the trimmed body is empty, or the *untrimmed*
body length exceeds 1000 (the source checks `body.length > 1000` on the raw
body, so the trimmed length being in `[1,1000]` does not guarantee
acceptance); and whenever `ValidationError` is raised it is raised before any
store write: the state — counters, messages, users — is returned unchanged. -/
theorem postMessage_validation (cfg : Config) (env : Env) (userId : Option Nat)
    (body : Option (List Char)) (st : St) :
    ((postMessage cfg env userId body st).1 = .error .validation ↔
      userId = none ∨ body = none ∨
        ∃ b, body = some b ∧ ((jsTrim b).length = 0 ∨ b.length > 1000)) ∧
    ((postMessage cfg env userId body st).1 = .error .validation →
      (postMessage cfg env userId body st).2 = st) := by
  cases userId with
  | none => exact ⟨by simp [postMessage], fun _ => rfl⟩
  | some uid =>
    cases body with
    | none => exact ⟨by simp [postMessage], fun _ => rfl⟩
    | some b =>
      by_cases hb : b = []
      · subst hb
        exact ⟨by simp [postMessage, jsTrim_nil], fun _ => rfl⟩
      · by_cases ht : (jsTrim b).length = 0
        · refine ⟨?_, fun _ => ?_⟩
          · simp only [postMessage, if_neg hb, if_pos ht, true_iff]
            exact Or.inr (Or.inr ⟨b, rfl, Or.inl ht⟩)
          · simp [postMessage, hb, ht]
        · by_cases hl : b.length > 1000
          · refine ⟨by simp [postMessage, hb, ht, hl], fun _ => ?_⟩
            simp [postMessage, hb, ht, hl]
          · have hne : (postMessage cfg env (some uid) (some b) st).1 ≠
                .error .validation := by
              simp only [postMessage, if_neg hb, if_neg ht, if_neg hl]
              cases hf : findUser uid st.users with
              | none => simp
              | some u =>
                by_cases hL : (checkAndRecordRequest cfg env.mode st.now uid
                    st.counters).1.isLimited
                · simp [hL]
                · by_cases hI : env.insertOk <;> simp [hL, hI]
            refine ⟨?_, fun h => absurd h hne⟩
            simp only [hne, false_iff]
            push_neg
            refine ⟨by simp, by simp, ?_⟩
            intro b2 hb2
            obtain rfl : b = b2 := by injection hb2
            constructor
            · exact ht
            · omega

/-- Witness for `postMessage_validation`: an absent body raises
`ValidationError` and leaves the state unchanged. -/
theorem postMessage_validation_witness :
    (postMessage ⟨3600000, 10⟩ ⟨.ok, true⟩ (some 0) none (initSt [0])).1 =
      Except.error Err.validation ∧
    (postMessage ⟨3600000, 10⟩ ⟨.ok, true⟩ (some 0) none (initSt [0])).2 =
      initSt [0] :=
  ⟨rfl,
   (postMessage_validation ⟨3600000, 10⟩ ⟨.ok, true⟩ (some 0) none
     (initSt [0])).2 rfl⟩

/-- C5, counterexample to the claim as stated: a body of 1000 letters followed
by one space has trimmed length 1000 — inside the claimed acceptance range
`[1,1000]` — yet `postMessage` raises `ValidationError`, because the source
checks the raw, untrimmed length against 1000. -/
theorem postMessage_trimmed_length_claim_false :
    (jsTrim (List.replicate 1000 'a' ++ [' '])).length = 1000 ∧
    (postMessage ⟨3600000, 10⟩ ⟨.ok, true⟩ (some 0)
        (some (List.replicate 1000 'a' ++ [' '])) (initSt [0])).1 =
      Except.error Err.validation := by
  have h1000 : (999 : Nat) + 1 = 1000 := rfl
  have htrim : jsTrim (List.replicate 1000 'a' ++ [' ']) = List.replicate 1000 'a' := by
    rw [← h1000]; exact jsTrim_a_space 999
  have hlen : (List.replicate 1000 'a' ++ [' ']).length = 1001 := by
    rw [List.length_append, List.length_replicate, List.length_singleton]
  constructor
  · rw [htrim, List.length_replicate]
  · have hb : List.replicate 1000 'a' ++ [' '] ≠ ([] : List Char) := by
      intro h
      have h2 := congrArg List.length h
      rw [hlen] at h2
      exact absurd h2 (by norm_num)
    have ht : ¬ (jsTrim (List.replicate 1000 'a' ++ [' '])).length = 0 := by
      rw [htrim, List.length_replicate]
      norm_num
    simp only [postMessage, if_neg hb, if_neg ht, hlen]
    rw [if_pos (by norm_num)]

/-- A one-user, one-message state used by concrete witnesses: user 0 owns the
single message 0. -/
def stOne : St :=
  { msgs := [{ id := 0, body := ['a'], user := 0, createdAt := 0,
               previousMessage := none, nextMessage := none }],
    users := [{ id := 0, postCount := 1, lastPostAt := some 0 }],
    counters := cEmpty, now := 1, nextId := 1 }

/-- C10: a successful `updateMessage` call changes only the target message's
body, setting it to the trimmed new body: the returned document keeps the old
id, owner, creation time and both chain links; in the store, every message
other than the target is unchanged and the target changes only its body; the
users collection, the rate-limit counter store (never consulted by the
function), the clock and the id source are all untouched. -/
theorem updateMessage_frame (st : St) (i : Nat) (b : List Char) (m2 : Msg)
    (h : (updateMessage (some i) (some b) st).1 = .ok m2) :
    ∃ m, findById i st.msgs = some m ∧
      m2 = { m with body := jsTrim b } ∧
      m2.id = m.id ∧ m2.user = m.user ∧ m2.createdAt = m.createdAt ∧
      m2.previousMessage = m.previousMessage ∧ m2.nextMessage = m.nextMessage ∧
      (updateMessage (some i) (some b) st).2.msgs =
        st.msgs.map (fun x => if x.id = i then { x with body := jsTrim b } else x) ∧
      (updateMessage (some i) (some b) st).2.users = st.users ∧
      (updateMessage (some i) (some b) st).2.counters = st.counters ∧
      (updateMessage (some i) (some b) st).2.now = st.now ∧
      (updateMessage (some i) (some b) st).2.nextId = st.nextId := by
  by_cases hb : b = []
  · rw [updateMessage, hb] at h
    simp at h
  · by_cases ht : (jsTrim b).length = 0
    · rw [updateMessage] at h
      rw [if_neg hb, if_pos ht] at h
      simp at h
    · by_cases hl : b.length > 1000
      · rw [updateMessage] at h
        rw [if_neg hb, if_neg ht, if_pos hl] at h
        simp at h
      · rw [updateMessage] at h
        rw [if_neg hb, if_neg ht, if_neg hl] at h
        cases hf : findById i st.msgs with
        | none =>
          rw [hf] at h
          simp at h
        | some m =>
          rw [hf] at h
          simp only [Except.ok.injEq] at h
          have ht2 : jsTrim b ≠ [] := by
            intro h0
            exact ht (by rw [h0]; rfl)
          refine ⟨m, rfl, h.symm, ?_, ?_, ?_, ?_, ?_, ?_, ?_, ?_, ?_, ?_⟩ <;>
            simp [updateMessage, if_neg hb, if_neg ht, if_neg hl, hf, updMsg, ht2, ← h]

/-- Witness for `updateMessage_frame` on the one-message state. -/
theorem updateMessage_frame_witness :
    ∃ m, findById 0 stOne.msgs = some m ∧
      ({ id := 0, body := ['b'], user := 0, createdAt := 0,
         previousMessage := none, nextMessage := none } : Msg) =
        { m with body := jsTrim ['b'] } ∧
      ({ id := 0, body := ['b'], user := 0, createdAt := 0,
         previousMessage := none, nextMessage := none } : Msg).id = m.id ∧
      ({ id := 0, body := ['b'], user := 0, createdAt := 0,
         previousMessage := none, nextMessage := none } : Msg).user = m.user ∧
      ({ id := 0, body := ['b'], user := 0, createdAt := 0,
         previousMessage := none, nextMessage := none } : Msg).createdAt = m.createdAt ∧
      ({ id := 0, body := ['b'], user := 0, createdAt := 0,
         previousMessage := none, nextMessage := none } : Msg).previousMessage =
        m.previousMessage ∧
      ({ id := 0, body := ['b'], user := 0, createdAt := 0,
         previousMessage := none, nextMessage := none } : Msg).nextMessage =
        m.nextMessage ∧
      (updateMessage (some 0) (some ['b']) stOne).2.msgs =
        stOne.msgs.map (fun x => if x.id = 0 then { x with body := jsTrim ['b'] } else x) ∧
      (updateMessage (some 0) (some ['b']) stOne).2.users = stOne.users ∧
      (updateMessage (some 0) (some ['b']) stOne).2.counters = stOne.counters ∧
      (updateMessage (some 0) (some ['b']) stOne).2.now = stOne.now ∧
      (updateMessage (some 0) (some ['b']) stOne).2.nextId = stOne.nextId :=
  updateMessage_frame stOne 0 ['b']
    { id := 0, body := ['b'], user := 0, createdAt := 0,
      previousMessage := none, nextMessage := none } rfl

/-- C8 (amended): every `postMessage` invocation that completes without
throwing — the success path and the rate-limited path — returns the full
`{message, rateLimitInfo, success, error}` payload with `rateLimitInfo`
populated, so the caller receives remaining quota and reset time on both
paths; on the rate-limited path the payload has no message and carries the
rate-limit error text, on the success path it carries the saved message and
no error.  Invocations that throw (validation, not-found, internal) return no
payload at all — see the counterexample. -/
theorem postMessage_payload (cfg : Config) (env : Env) (userId : Option Nat)
    (body : Option (List Char)) (st : St) (r : PostResult)
    (h : (postMessage cfg env userId body st).1 = .ok r) :
    (∃ s : RLStatus, r.rateLimitInfo = some s) ∧
    (r.success = false → r.message = none ∧ r.error = some rateLimitErrMsg) ∧
    (r.success = true → r.error = none ∧ ∃ m, r.message = some m) := by
  cases userId with
  | none => rw [postMessage] at h; simp at h
  | some uid =>
    cases body with
    | none => rw [postMessage] at h; simp at h
    | some b =>
      rw [postMessage] at h
      by_cases hb : b = []
      · rw [if_pos hb] at h; simp at h
      · rw [if_neg hb] at h
        by_cases ht : (jsTrim b).length = 0
        · rw [if_pos ht] at h; simp at h
        · rw [if_neg ht] at h
          by_cases hl : b.length > 1000
          · rw [if_pos hl] at h; simp at h
          · rw [if_neg hl] at h
            cases hf : findUser uid st.users with
            | none => rw [hf] at h; simp at h
            | some u =>
              rw [hf] at h
              simp only at h
              by_cases hL : (checkAndRecordRequest cfg env.mode st.now uid
                  st.counters).1.isLimited
              · rw [if_pos hL] at h
                simp only [Except.ok.injEq] at h
                subst h
                exact ⟨⟨_, rfl⟩, fun _ => ⟨rfl, rfl⟩, fun hs => by simp at hs⟩
              · rw [if_neg hL] at h
                by_cases hI : env.insertOk
                · rw [if_pos hI] at h
                  simp only [Except.ok.injEq] at h
                  subst h
                  exact ⟨⟨_, rfl⟩, fun hs => by simp at hs, fun _ => ⟨rfl, _, rfl⟩⟩
                · rw [if_neg hI] at h
                  simp at h

/-- The payload actually returned by a first successful post of body `"a"` by
user 0 from the initial state, used by the C8 witness. -/
def firstPostPayload : PostResult :=
  { message := some { id := 0, body := ['a'], user := 0, createdAt := 0,
                      previousMessage := none, nextMessage := none },
    rateLimitInfo := some
      { isLimited := false, remainingRequests := 9, resetTime := 3600000,
        windowMs := 3600000, currentCount := 1 },
    success := true, error := none }

/-- Witness for `postMessage_payload`: a successful post on the initial
one-user state. -/
theorem postMessage_payload_witness :
    (∃ s : RLStatus, firstPostPayload.rateLimitInfo = some s) ∧
    (firstPostPayload.success = false →
      firstPostPayload.message = none ∧
        firstPostPayload.error = some rateLimitErrMsg) ∧
    (firstPostPayload.success = true →
      firstPostPayload.error = none ∧ ∃ m, firstPostPayload.message = some m) :=
  postMessage_payload ⟨3600000, 10⟩ ⟨.ok, true⟩ (some 0) (some ['a']) (initSt [0])
    firstPostPayload rfl

/-- C8, counterexample to "every postMessage invocation returns a result of
shape {message, rateLimitInfo, success, error}": a call with an absent body
throws `ValidationError` — no payload is returned at all. -/
theorem postMessage_not_always_payload :
    (postMessage ⟨3600000, 10⟩ ⟨.ok, true⟩ (some 0) none (initSt [0])).1 =
      Except.error Err.validation ∧
    ∀ r : PostResult,
      (postMessage ⟨3600000, 10⟩ ⟨.ok, true⟩ (some 0) none (initSt [0])).1 ≠
        Except.ok r :=
  ⟨rfl, fun _ h => Except.noConfusion h⟩

/-- C6: in `postMessage` the counter is incremented by the atomic
`checkAndRecordRequest` call before message insertion is attempted; when the
insertion then fails with an internal error, the call throws but the counter
keeps its incremented value — it is never rolled back (and no message or user
change is made). -/
theorem postMessage_no_counter_rollback (cfg : Config) (st : St) (uid : Nat)
    (b : List Char) (hmax : 1 ≤ cfg.maxRequests)
    (hb : b ≠ []) (ht : (jsTrim b).length ≠ 0) (hl : ¬ b.length > 1000)
    (hu : (findUser uid st.users).isSome = true)
    (hc : cCount (getKey cfg.windowMs st.now uid) st.counters < cfg.maxRequests) :
    (postMessage cfg ⟨.ok, false⟩ (some uid) (some b) st).1 =
      Except.error Err.internal ∧
    cCount (getKey cfg.windowMs st.now uid)
        (postMessage cfg ⟨.ok, false⟩ (some uid) (some b) st).2.counters =
      cCount (getKey cfg.windowMs st.now uid) st.counters + 1 ∧
    (postMessage cfg ⟨.ok, false⟩ (some uid) (some b) st).2.msgs = st.msgs ∧
    (postMessage cfg ⟨.ok, false⟩ (some uid) (some b) st).2.users = st.users := by
  obtain ⟨u, hu2⟩ := Option.isSome_iff_exists.mp hu
  have hL : (checkAndRecordRequest cfg .ok st.now uid st.counters).1.isLimited = false := by
    rw [checkAndRecordRequest_isLimited_not_success,
      (checkAndRecordRequest_success_step cfg hmax st.now uid st.counters).1.mpr hc]
    rfl
  have hcount := checkAndRecordRequest_count_step cfg hmax st.now uid st.counters
  rw [if_neg (by omega)] at hcount
  refine ⟨?_, ?_, ?_, ?_⟩ <;>
    simp [postMessage, hb, ht, hl, hu2, hL, hcount]

/-- Witness for `postMessage_no_counter_rollback` on the initial one-user
state with a failing insert. -/
theorem postMessage_no_counter_rollback_witness :
    (postMessage ⟨3600000, 10⟩ ⟨.ok, false⟩ (some 0) (some ['a']) (initSt [0])).1 =
      Except.error Err.internal ∧
    cCount (getKey 3600000 (initSt [0]).now 0)
        (postMessage ⟨3600000, 10⟩ ⟨.ok, false⟩ (some 0) (some ['a'])
          (initSt [0])).2.counters =
      cCount (getKey 3600000 (initSt [0]).now 0) (initSt [0]).counters + 1 ∧
    (postMessage ⟨3600000, 10⟩ ⟨.ok, false⟩ (some 0) (some ['a'])
      (initSt [0])).2.msgs = (initSt [0]).msgs ∧
    (postMessage ⟨3600000, 10⟩ ⟨.ok, false⟩ (some 0) (some ['a'])
      (initSt [0])).2.users = (initSt [0]).users :=
  postMessage_no_counter_rollback ⟨3600000, 10⟩ (initSt [0]) 0 ['a']
    (by decide) (by decide) (by decide) (by decide) (by decide) (by decide)

theorem findById_eq_some (j : Nat) (db : List Msg) (m : Msg)
    (h : findById j db = some m) : m.id = j ∧ m ∈ db := by
  rw [findById] at h
  exact ⟨by simpa using List.find?_some h, List.mem_of_find?_eq_some h⟩

theorem findById_map (g : Msg → Msg) (hg : ∀ m, (g m).id = m.id) (j : Nat)
    (db : List Msg) : findById j (db.map g) = (findById j db).map g := by
  induction db with
  | nil => rfl
  | cons a l ih =>
    rw [List.map_cons]
    by_cases hj : a.id = j
    · rw [findById, List.find?_cons_of_pos _ (by simp [hg a, hj]),
        findById, List.find?_cons_of_pos _ (by simp [hj])]
      rfl
    · rw [findById, List.find?_cons_of_neg _ (by simp [hg a, hj]),
        findById, List.find?_cons_of_neg _ (by simp [hj])]
      exact ih

theorem findById_updMsg (i j : Nat) (f : Msg → Msg) (hf : ∀ m, (f m).id = m.id)
    (db : List Msg) :
    findById j (updMsg i f db) =
      (findById j db).map (fun m => if m.id = i then f m else m) := by
  apply findById_map
  intro m
  by_cases h : m.id = i <;> simp [h, hf]

theorem findById_eraseP_ne (i j : Nat) (hij : j ≠ i) (db : List Msg) :
    findById j (db.eraseP (fun x => x.id == i)) = findById j db := by
  induction db with
  | nil => rfl
  | cons a l ih =>
    by_cases hai : a.id = i
    · rw [List.eraseP_cons_of_pos (by simp [hai])]
      rw [findById, findById, List.find?_cons_of_neg _ (by simp [hai]; omega)]
    · rw [List.eraseP_cons_of_neg (by simp [hai])]
      by_cases haj : a.id = j
      · rw [findById, List.find?_cons_of_pos _ (by simp [haj]),
          findById, List.find?_cons_of_pos _ (by simp [haj])]
      · rw [findById, List.find?_cons_of_neg _ (by simp [haj]),
          findById, List.find?_cons_of_neg _ (by simp [haj])]
        exact ih

theorem findById_eraseP_self (i : Nat) (db : List Msg)
    (hids : db.Pairwise (fun a b => a.id ≠ b.id)) :
    findById i (db.eraseP (fun x => x.id == i)) = none := by
  induction db with
  | nil => rfl
  | cons a l ih =>
    rcases List.pairwise_cons.mp hids with ⟨ha, hl⟩
    by_cases hai : a.id = i
    · rw [List.eraseP_cons_of_pos (by simp [hai])]
      rw [findById]
      refine List.find?_eq_none.mpr ?_
      intro x hx
      simp only [beq_iff_eq]
      intro hxi
      exact (ha x hx) (by rw [hxi, hai])
    · rw [List.eraseP_cons_of_neg (by simp [hai])]
      rw [findById, List.find?_cons_of_neg _ (by simp [hai])]
      exact ih hl

theorem pairwise_ids_map (g : Msg → Msg) (hg : ∀ m, (g m).id = m.id)
    (db : List Msg) (h : db.Pairwise (fun a b => a.id ≠ b.id)) :
    (db.map g).Pairwise (fun a b => a.id ≠ b.id) := by
  rw [List.pairwise_map]
  exact h.imp (by intro a b hab; simpa [hg] using hab)

theorem pairwise_ids_updMsg (i : Nat) (f : Msg → Msg) (hf : ∀ m, (f m).id = m.id)
    (db : List Msg) (h : db.Pairwise (fun a b => a.id ≠ b.id)) :
    (updMsg i f db).Pairwise (fun a b => a.id ≠ b.id) :=
  pairwise_ids_map _ (fun m => by by_cases hm : m.id = i <;> simp [hm, hf]) db h

/-- C3: `deleteMessage(messageId)` on a store with distinct message ids:
a missing message id fails with `NotFoundError` and changes nothing.
Otherwise the call succeeds returning `true`, the message record is deleted,
the previous neighbour (when one exists and is a genuine other record) gets
its `nextMessage` set to the deleted message's `nextMessage` (the next
neighbour's id when both neighbours exist, `null` when only the previous
exists), the next neighbour symmetrically gets its `previousMessage` set to
the deleted message's `previousMessage`, the owner's `postCount` is
decremented, and the rate-limit counters are untouched. -/
theorem deleteMessage_spec (st : St) (i : Nat)
    (hids : st.msgs.Pairwise (fun a b => a.id ≠ b.id)) :
    (findById i st.msgs = none →
      deleteMessage (some i) st = (Except.error Err.notFound, st)) ∧
    (∀ m, findById i st.msgs = some m →
      m.previousMessage ≠ some i → m.nextMessage ≠ some i →
      (∀ pid nid, m.previousMessage = some pid → m.nextMessage = some nid →
        pid ≠ nid) →
      ∃ st2, deleteMessage (some i) st = (Except.ok true, st2) ∧
        findById i st2.msgs = none ∧
        (∀ pid p, m.previousMessage = some pid → findById pid st.msgs = some p →
          findById pid st2.msgs = some { p with nextMessage := m.nextMessage }) ∧
        (∀ nid nx, m.nextMessage = some nid → findById nid st.msgs = some nx →
          findById nid st2.msgs = some { nx with previousMessage := m.previousMessage }) ∧
        st2.users =
          updUser m.user (fun u => { u with postCount := u.postCount - 1 }) st.users ∧
        st2.counters = st.counters) := by
  constructor
  · intro hf
    rw [deleteMessage, hf]
  · intro m hf hpi hni hpn
    rcases hp : m.previousMessage with _ | p <;> rcases hn : m.nextMessage with _ | n
    · -- no neighbours
      refine ⟨{ st with
          msgs := st.msgs.eraseP (fun x => x.id == i),
          users := updUser m.user (fun u => { u with postCount := u.postCount - 1 })
            st.users },
        ?_, ?_, ?_, ?_, rfl, rfl⟩
      · simp only [deleteMessage, hf, hp, hn]
      · exact findById_eraseP_self i st.msgs hids
      · intro pid pr hpe
        exact Option.noConfusion hpe
      · intro nid nx hne
        exact Option.noConfusion hne
    · -- only a next neighbour
      have hni2 : n ≠ i := fun h => hni (by rw [hn, h])
      refine ⟨{ st with
          msgs := (updMsg n (fun x => { x with previousMessage := none })
            st.msgs).eraseP (fun x => x.id == i),
          users := updUser m.user (fun u => { u with postCount := u.postCount - 1 })
            st.users },
        ?_, ?_, ?_, ?_, rfl, rfl⟩
      · simp only [deleteMessage, hf, hp, hn]
      · exact findById_eraseP_self i _
          (pairwise_ids_updMsg n (fun x => { x with previousMessage := none })
            (fun _ => rfl) st.msgs hids)
      · intro pid pr hpe
        exact Option.noConfusion hpe
      · intro nid nx hne hfn
        obtain rfl : n = nid := Option.some.inj hne
        show findById n (List.eraseP _ _) = _
        rw [findById_eraseP_ne i n hni2,
          findById_updMsg n n (fun x => { x with previousMessage := none })
            (fun _ => rfl) st.msgs, hfn]
        have hnid := (findById_eq_some n st.msgs nx hfn).1
        simp [hnid]
    · -- only a previous neighbour
      have hpi2 : p ≠ i := fun h => hpi (by rw [hp, h])
      refine ⟨{ st with
          msgs := (updMsg p (fun x => { x with nextMessage := none })
            st.msgs).eraseP (fun x => x.id == i),
          users := updUser m.user (fun u => { u with postCount := u.postCount - 1 })
            st.users },
        ?_, ?_, ?_, ?_, rfl, rfl⟩
      · simp only [deleteMessage, hf, hp, hn]
      · exact findById_eraseP_self i _
          (pairwise_ids_updMsg p (fun x => { x with nextMessage := none })
            (fun _ => rfl) st.msgs hids)
      · intro pid pr hpe hfp
        obtain rfl : p = pid := Option.some.inj hpe
        show findById p (List.eraseP _ _) = _
        rw [findById_eraseP_ne i p hpi2,
          findById_updMsg p p (fun x => { x with nextMessage := none })
            (fun _ => rfl) st.msgs, hfp]
        have hpid := (findById_eq_some p st.msgs pr hfp).1
        simp [hpid]
      · intro nid nx hne
        exact Option.noConfusion hne
    · -- both neighbours
      have hpi2 : p ≠ i := fun h => hpi (by rw [hp, h])
      have hni2 : n ≠ i := fun h => hni (by rw [hn, h])
      have hpn2 : p ≠ n := hpn p n hp hn
      refine ⟨{ st with
          msgs := (updMsg n (fun x => { x with previousMessage := some p })
            (updMsg p (fun x => { x with nextMessage := some n })
              st.msgs)).eraseP (fun x => x.id == i),
          users := updUser m.user (fun u => { u with postCount := u.postCount - 1 })
            st.users },
        ?_, ?_, ?_, ?_, rfl, rfl⟩
      · simp only [deleteMessage, hf, hp, hn]
      · exact findById_eraseP_self i _
          (pairwise_ids_updMsg n (fun x => { x with previousMessage := some p })
            (fun _ => rfl) _
            (pairwise_ids_updMsg p (fun x => { x with nextMessage := some n })
              (fun _ => rfl) st.msgs hids))
      · intro pid pr hpe hfp
        obtain rfl : p = pid := Option.some.inj hpe
        show findById p (List.eraseP _ _) = _
        rw [findById_eraseP_ne i p hpi2,
          findById_updMsg n p (fun x => { x with previousMessage := some p })
            (fun _ => rfl),
          findById_updMsg p p (fun x => { x with nextMessage := some n })
            (fun _ => rfl) st.msgs, hfp]
        have hpid := (findById_eq_some p st.msgs pr hfp).1
        simp [hpid, hpn2]
      · intro nid nx hne hfn
        obtain rfl : n = nid := Option.some.inj hne
        show findById n (List.eraseP _ _) = _
        rw [findById_eraseP_ne i n hni2,
          findById_updMsg n n (fun x => { x with previousMessage := some p })
            (fun _ => rfl),
          findById_updMsg p n (fun x => { x with nextMessage := some n })
            (fun _ => rfl) st.msgs, hfn]
        have hnid := (findById_eq_some n st.msgs nx hfn).1
        have hnp : n ≠ p := fun h => hpn2 h.symm
        simp [hnid, hnp]

/-- Three chained messages A (id 0), B (id 1), C (id 2) of user 0, in that
creation order — the Scenario D state. -/
def stABC : St :=
  { msgs :=
      [{ id := 0, body := ['a'], user := 0, createdAt := 0,
         previousMessage := none, nextMessage := some 1 },
       { id := 1, body := ['b'], user := 0, createdAt := 1,
         previousMessage := some 0, nextMessage := some 2 },
       { id := 2, body := ['c'], user := 0, createdAt := 2,
         previousMessage := some 1, nextMessage := none }],
    users := [{ id := 0, postCount := 3, lastPostAt := some 2 }],
    counters := cEmpty, now := 3, nextId := 3 }

/-- Witness for `deleteMessage_spec`: Scenario D — deleting the middle message
B of the chain A, B, C leaves `A.nextMessage = C.id` and
`C.previousMessage = A.id` (the last two conjuncts check the resulting store
records concretely). -/
theorem deleteMessage_spec_witness :
    (∃ st2, deleteMessage (some 1) stABC = (Except.ok true, st2) ∧
      findById 1 st2.msgs = none ∧
      (∀ pid p,
        ({ id := 1, body := ['b'], user := 0, createdAt := 1,
           previousMessage := some 0, nextMessage := some 2 } : Msg).previousMessage =
            some pid →
        findById pid stABC.msgs = some p →
          findById pid st2.msgs = some { p with nextMessage := some 2 }) ∧
      (∀ nid nx,
        ({ id := 1, body := ['b'], user := 0, createdAt := 1,
           previousMessage := some 0, nextMessage := some 2 } : Msg).nextMessage =
            some nid →
        findById nid stABC.msgs = some nx →
          findById nid st2.msgs = some { nx with previousMessage := some 0 }) ∧
      st2.users =
        updUser 0 (fun u => { u with postCount := u.postCount - 1 }) stABC.users ∧
      st2.counters = stABC.counters) ∧
    findById 0 (deleteMessage (some 1) stABC).2.msgs =
      some { id := 0, body := ['a'], user := 0, createdAt := 0,
             previousMessage := none, nextMessage := some 2 } ∧
    findById 2 (deleteMessage (some 1) stABC).2.msgs =
      some { id := 2, body := ['c'], user := 0, createdAt := 2,
             previousMessage := some 0, nextMessage := none } :=
  ⟨(deleteMessage_spec stABC 1 (by decide)).2
      { id := 1, body := ['b'], user := 0, createdAt := 1,
        previousMessage := some 0, nextMessage := some 2 }
      (by decide) (by decide) (by decide)
      (by intro pid nid hp hn; injection hp; injection hn; omega),
   by decide, by decide⟩

/-- Chain-segment predicate: `chainSeg p l q` states the records in `l` are
doubly linked in list order — the first element's `previousMessage` is `p`,
each element's `nextMessage` is the id of its successor in `l` (and `q` for
the last one), and each element after the first has its predecessor's id as
`previousMessage`. -/
def chainSeg : Option Nat → List Msg → Option Nat → Prop
  | _, [], _ => True
  | p, m :: rest, q =>
    m.previousMessage = p ∧
    (match rest with
     | [] => m.nextMessage = q
     | m2 :: _ => m.nextMessage = some m2.id) ∧
    chainSeg (some m.id) rest q

/-- The id of the last record of `l`, or `p` when `l` is empty: what the
`previousMessage` of a record appended after `l` must be. -/
def lastIdFrom (p : Option Nat) (l : List Msg) : Option Nat :=
  match l.getLast? with
  | none => p
  | some t => some t.id

/-- Swap the two chain links of a record. -/
def flipMsg (m : Msg) : Msg :=
  { m with previousMessage := m.nextMessage, nextMessage := m.previousMessage }

/-- Walk a chain forward from a starting record, resolving each
`nextMessage` reference in the store, with explicit fuel. -/
def traverseNext (db : List Msg) : Nat → Option Msg → List Msg
  | 0, _ => []
  | _ + 1, none => []
  | fuel + 1, some m =>
    m :: traverseNext db fuel (m.nextMessage.bind (fun j => findById j db))

/-- Walk a chain backward from a starting record, resolving each
`previousMessage` reference in the store, with explicit fuel. -/
def traversePrev (db : List Msg) : Nat → Option Msg → List Msg
  | 0, _ => []
  | _ + 1, none => []
  | fuel + 1, some m =>
    m :: traversePrev db fuel (m.previousMessage.bind (fun j => findById j db))

/-- Sequential inserts: starting from `db`, save one fresh message per listed
owner through the pre-save linking middleware; the k-th insert gets id and
creation time `k`, so ids equal creation order and the clock strictly
increases between sequential saves. -/
def runInsertsGo : Nat → List Msg → List Nat → List Msg
  | _, db, [] => db
  | k, db, u :: rest =>
    runInsertsGo (k + 1)
      (saveNewMessage
        { id := k, body := [], user := u, createdAt := k,
          previousMessage := none, nextMessage := none } db).2
      rest

/-- Run a whole sequence of sequential inserts from an empty store. -/
def runInserts (uids : List Nat) : List Msg :=
  runInsertsGo 0 [] uids

/-- Store well-formedness maintained by sequential inserts: ids equal
creation times and are below the clock, creation times strictly increase
along the store, and every user's messages form one doubly linked chain. -/
def msgWF (n : Nat) (db : List Msg) : Prop :=
  (∀ m ∈ db, m.id = m.createdAt ∧ m.createdAt < n) ∧
  db.Pairwise (fun a b => a.createdAt < b.createdAt) ∧
  ∀ uid, chainSeg none (db.filter (fun m => m.user == uid)) none

theorem flipMsg_flipMsg (m : Msg) : flipMsg (flipMsg m) = m := rfl

theorem lastIdFrom_cons (p : Option Nat) (a : Msg) (l : List Msg) :
    lastIdFrom p (a :: l) = lastIdFrom (some a.id) l := by
  cases l with
  | nil => rfl
  | cons b t =>
    rw [lastIdFrom, lastIdFrom, List.getLast?_cons_cons]
    cases h : (b :: t).getLast? with
    | none => simp at h
    | some x => rfl

theorem lastIdFrom_concat (p : Option Nat) (t : Msg) (l : List Msg) :
    lastIdFrom p (l ++ [t]) = some t.id := by
  rw [lastIdFrom, List.getLast?_concat]

theorem getLast?_map_msg (f : Msg → Msg) (l : List Msg) :
    (l.map f).getLast? = (l.getLast?).map f := by
  induction l with
  | nil => rfl
  | cons a l ih =>
    cases l with
    | nil => rfl
    | cons b t =>
      rw [List.map_cons, List.map_cons, List.getLast?_cons_cons, ← List.map_cons, ih,
        List.getLast?_cons_cons]

theorem findById_self (db : List Msg) (hids : db.Pairwise (fun a b => a.id ≠ b.id)) :
    ∀ m ∈ db, findById m.id db = some m := by
  induction db with
  | nil => intro m hm; simp at hm
  | cons a l ih =>
    rcases List.pairwise_cons.mp hids with ⟨ha, hl⟩
    intro m hm
    rcases List.mem_cons.mp hm with rfl | hm2
    · rw [findById, List.find?_cons_of_pos _ (by simp)]
    · rw [findById, List.find?_cons_of_neg _ (by simp [ha m hm2])]
      exact ih hl m hm2

theorem chainSeg_snoc_elim :
    ∀ (l : List Msg) (p q : Option Nat) (t : Msg), chainSeg p (l ++ [t]) q →
      chainSeg p l (some t.id) ∧ t.previousMessage = lastIdFrom p l ∧
        t.nextMessage = q := by
  intro l
  induction l with
  | nil =>
    intro p q t h
    obtain ⟨h1, h2, -⟩ := h
    exact ⟨trivial, h1, h2⟩
  | cons a l ih =>
    intro p q t h
    obtain ⟨h1, h2, h3⟩ := h
    obtain ⟨ih1, ih2, ih3⟩ := ih (some a.id) q t h3
    refine ⟨⟨h1, ?_, ih1⟩, ?_, ih3⟩
    · cases l with
      | nil => exact h2
      | cons a2 l2 => exact h2
    · rw [lastIdFrom_cons]
      exact ih2

theorem chainSeg_snoc_intro :
    ∀ (l : List Msg) (p q : Option Nat) (t : Msg), chainSeg p l (some t.id) →
      t.previousMessage = lastIdFrom p l → t.nextMessage = q →
      chainSeg p (l ++ [t]) q := by
  intro l
  induction l with
  | nil =>
    intro p q t _ hp hn
    exact ⟨hp, hn, trivial⟩
  | cons a l ih =>
    intro p q t h hp hn
    obtain ⟨h1, h2, h3⟩ := h
    rw [lastIdFrom_cons] at hp
    refine ⟨h1, ?_, ih (some a.id) q t h3 hp hn⟩
    cases l with
    | nil => exact h2
    | cons a2 l2 => exact h2

theorem chainSeg_flip :
    ∀ (l : List Msg) (p q : Option Nat), chainSeg p l q →
      chainSeg q ((l.map flipMsg).reverse) p := by
  intro l
  induction l with
  | nil => intro p q _; trivial
  | cons m rest ih =>
    intro p q h
    obtain ⟨h1, h2, h3⟩ := h
    rw [List.map_cons, List.reverse_cons]
    refine chainSeg_snoc_intro _ q p (flipMsg m) ?_ ?_ ?_
    · exact ih (some m.id) q h3
    · show m.nextMessage = _
      cases rest with
      | nil => simpa [lastIdFrom] using h2
      | cons m2 r =>
        rw [lastIdFrom, List.getLast?_reverse, List.map_cons, List.head?_cons]
        exact h2
    · exact h1

theorem traverseNext_of_chainSeg (db : List Msg) :
    ∀ (l : List Msg) (p : Option Nat) (fuel : Nat),
      chainSeg p l none → (∀ m ∈ l, findById m.id db = some m) →
      l.length ≤ fuel → traverseNext db fuel l.head? = l := by
  intro l
  induction l with
  | nil =>
    intro p fuel _ _ _
    cases fuel <;> rfl
  | cons m rest ih =>
    intro p fuel h hfind hlen
    obtain ⟨h1, h2, h3⟩ := h
    cases fuel with
    | zero => simp at hlen
    | succ f =>
      rw [List.head?_cons, traverseNext]
      cases rest with
      | nil =>
        rw [h2]
        cases f <;> rfl
      | cons m2 r =>
        rw [h2]
        have hf2 : findById m2.id db = some m2 :=
          hfind m2 (List.mem_cons_of_mem _ (List.mem_cons_self _ _))
        have harg : (some m2.id).bind (fun j => findById j db) = some m2 := by
          simp [hf2]
        rw [harg]
        have hrec := ih (some m.id) f h3
          (fun x hx => hfind x (List.mem_cons_of_mem _ hx))
          (by simp only [List.length_cons] at hlen ⊢; omega)
        rw [List.head?_cons] at hrec
        rw [hrec]

theorem findById_map_flip (j : Nat) (db : List Msg) :
    findById j (db.map flipMsg) = (findById j db).map flipMsg :=
  findById_map flipMsg (fun _ => rfl) j db

theorem traversePrev_eq_flip (db : List Msg) :
    ∀ (fuel : Nat) (x : Option Msg),
      traversePrev db fuel x =
        (traverseNext (db.map flipMsg) fuel (x.map flipMsg)).map flipMsg := by
  intro fuel
  induction fuel with
  | zero => intro x; cases x <;> rfl
  | succ f ih =>
    intro x
    cases x with
    | none => rfl
    | some m =>
      show traversePrev db (f + 1) (some m) =
        List.map flipMsg (traverseNext (List.map flipMsg db) (f + 1) (some (flipMsg m)))
      rw [traversePrev, traverseNext, List.map_cons, flipMsg_flipMsg]
      congr 1
      have harg : (flipMsg m).nextMessage.bind (fun j => findById j (db.map flipMsg)) =
          (m.previousMessage.bind (fun j => findById j db)).map flipMsg := by
        show m.previousMessage.bind _ = _
        cases m.previousMessage with
        | none => rfl
        | some j => simp [findById_map_flip]
      rw [harg, ← ih]

theorem latestPick_none (uid : Nat) (m : Msg) :
    latestPick uid none m = if m.user = uid then some m else none := rfl

theorem latestPick_some (uid : Nat) (c m : Msg) :
    latestPick uid (some c) m =
      if m.user = uid then (if m.createdAt > c.createdAt then some m else some c)
      else some c := rfl

theorem latestPick_go_mem (uid : Nat) :
    ∀ (db : List Msg) (acc : Option Msg) (b : Msg),
      db.foldl (latestPick uid) acc = some b →
      acc = some b ∨ (b ∈ db ∧ b.user = uid) := by
  intro db
  induction db with
  | nil => intro acc b h; exact Or.inl h
  | cons a l ih =>
    intro acc b h
    rw [List.foldl_cons] at h
    rcases ih _ b h with h2 | h2
    · cases acc with
      | none =>
        rw [latestPick_none] at h2
        by_cases hu : a.user = uid
        · rw [if_pos hu] at h2
          obtain rfl : a = b := by injection h2
          exact Or.inr ⟨List.mem_cons_self _ _, hu⟩
        · rw [if_neg hu] at h2
          exact Option.noConfusion h2
      | some c =>
        rw [latestPick_some] at h2
        by_cases hu : a.user = uid
        · rw [if_pos hu] at h2
          by_cases hgt : a.createdAt > c.createdAt
          · rw [if_pos hgt] at h2
            obtain rfl : a = b := by injection h2
            exact Or.inr ⟨List.mem_cons_self _ _, hu⟩
          · rw [if_neg hgt] at h2
            exact Or.inl h2
        · rw [if_neg hu] at h2
          exact Or.inl h2
    · exact Or.inr ⟨List.mem_cons_of_mem _ h2.1, h2.2⟩

theorem latestPick_go_max (uid : Nat) :
    ∀ (db : List Msg) (acc : Option Msg) (b : Msg),
      db.foldl (latestPick uid) acc = some b →
      (∀ c, acc = some c → c.createdAt ≤ b.createdAt) ∧
      (∀ m ∈ db, m.user = uid → m.createdAt ≤ b.createdAt) := by
  intro db
  induction db with
  | nil =>
    intro acc b h
    have hab : acc = some b := h
    refine ⟨fun c hc => ?_, fun m hm => by simp at hm⟩
    rw [hab] at hc
    obtain rfl : b = c := by injection hc
    exact Nat.le_refl _
  | cons a l ih =>
    intro acc b h
    rw [List.foldl_cons] at h
    obtain ⟨ih1, ih2⟩ := ih (latestPick uid acc a) b h
    have hstep : ∀ c, acc = some c → c.createdAt ≤ b.createdAt := by
      intro c hc
      subst hc
      rw [latestPick_some] at ih1
      by_cases hu : a.user = uid
      · rw [if_pos hu] at ih1
        by_cases hgt : a.createdAt > c.createdAt
        · rw [if_pos hgt] at ih1
          have := ih1 a rfl
          omega
        · rw [if_neg hgt] at ih1
          exact ih1 c rfl
      · rw [if_neg hu] at ih1
        exact ih1 c rfl
    refine ⟨hstep, fun m hm hmu => ?_⟩
    rcases List.mem_cons.mp hm with rfl | hm2
    · have h3 := ih1
      cases acc with
      | none =>
        rw [latestPick_none, if_pos hmu] at h3
        exact h3 m rfl
      | some c =>
        rw [latestPick_some, if_pos hmu] at h3
        by_cases hgt : m.createdAt > c.createdAt
        · rw [if_pos hgt] at h3
          exact h3 m rfl
        · rw [if_neg hgt] at h3
          have := h3 c rfl
          omega
    · exact ih2 m hm2 hmu

theorem latestPick_go_none (uid : Nat) :
    ∀ (db : List Msg) (acc : Option Msg),
      db.foldl (latestPick uid) acc = none →
      acc = none ∧ ∀ m ∈ db, m.user ≠ uid := by
  intro db
  induction db with
  | nil => intro acc h; exact ⟨h, by simp⟩
  | cons a l ih =>
    intro acc h
    rw [List.foldl_cons] at h
    obtain ⟨h1, h2⟩ := ih _ h
    have hu : a.user ≠ uid := by
      intro hu
      cases acc with
      | none =>
        rw [latestPick_none, if_pos hu] at h1
        exact Option.noConfusion h1
      | some c =>
        rw [latestPick_some, if_pos hu] at h1
        by_cases hgt : a.createdAt > c.createdAt
        · rw [if_pos hgt] at h1; exact Option.noConfusion h1
        · rw [if_neg hgt] at h1; exact Option.noConfusion h1
    have hacc : acc = none := by
      cases acc with
      | none => rfl
      | some c =>
        exfalso
        rw [latestPick_some, if_neg hu] at h1
        exact Option.noConfusion h1
    refine ⟨hacc, fun m hm => ?_⟩
    rcases List.mem_cons.mp hm with rfl | hm2
    · exact hu
    · exact h2 m hm2

/-- In a list whose creation times strictly increase, a member that bounds
every member's creation time from above is the last element. -/
theorem pairwise_lt_getLast :
    ∀ (l : List Msg) (b : Msg),
      l.Pairwise (fun a c => a.createdAt < c.createdAt) → b ∈ l →
      (∀ x ∈ l, x.createdAt ≤ b.createdAt) → l.getLast? = some b := by
  intro l
  induction l with
  | nil => intro b _ hb; simp at hb
  | cons a l ih =>
    intro b hp hb hmax
    rcases List.pairwise_cons.mp hp with ⟨ha, hl⟩
    cases l with
    | nil =>
      obtain rfl : b = a := by simpa using hb
      rfl
    | cons a2 l2 =>
      have hbl : b ∈ a2 :: l2 := by
        rcases List.mem_cons.mp hb with rfl | h2
        · exfalso
          have h3 := ha a2 (List.mem_cons_self _ _)
          have h4 := hmax a2 (List.mem_cons_of_mem _ (List.mem_cons_self _ _))
          omega
        · exact h2
      rw [List.getLast?_cons_cons]
      exact ih b hl hbl (fun x hx => hmax x (List.mem_cons_of_mem _ hx))

theorem eq_of_mem_pairwise_ids {db : List Msg}
    (hids : db.Pairwise (fun a b => a.id ≠ b.id)) {a b : Msg}
    (ha : a ∈ db) (hb : b ∈ db) (h : a.id = b.id) : a = b := by
  by_contra hne
  have hsymm : Symmetric (fun a b : Msg => a.id ≠ b.id) := by
    intro x y hxy he
    exact hxy he.symm
  exact hids.forall hsymm ha hb hne h

/-- One save through the pre-save linking middleware preserves store
well-formedness, advancing the clock by one: the fresh, unlinked message with
id and creation time equal to the clock is appended to its owner's chain. -/
theorem saveNewMessage_WF (k : Nat) (m0 : Msg) (db : List Msg)
    (h0 : m0.id = k) (h1 : m0.createdAt = k)
    (hp0 : m0.previousMessage = none) (hn0 : m0.nextMessage = none)
    (hwf : msgWF k db) :
    msgWF (k + 1) (saveNewMessage m0 db).2 := by
  obtain ⟨hb, hpair, hchain⟩ := hwf
  have hids : db.Pairwise (fun a b => a.id ≠ b.id) :=
    hpair.imp_of_mem (fun {a b} ha hb2 hlt => by
      have e1 := (hb a ha).1
      have e2 := (hb b hb2).1
      omega)
  cases hlat : findLatestMessage m0.user db with
  | none =>
    have hnou := latestPick_go_none m0.user db none hlat
    rw [saveNewMessage, hlat]
    refine ⟨?_, ?_, ?_⟩
    · intro m hm
      rcases List.mem_append.mp hm with hm2 | hm2
      · have h2 := hb m hm2
        exact ⟨h2.1, by omega⟩
      · obtain rfl : m = m0 := by simpa using hm2
        exact ⟨by rw [h0, h1], by omega⟩
    · rw [List.pairwise_append]
      refine ⟨hpair, by simp, ?_⟩
      intro a ha m hm2
      obtain rfl : m = m0 := by simpa using hm2
      have h2 := (hb a ha).2
      omega
    · intro uid
      rw [List.filter_append]
      by_cases huid : m0.user = uid
      · have hfilter : db.filter (fun m => m.user == uid) = [] := by
          rw [List.filter_eq_nil_iff]
          intro m hm
          simp only [beq_iff_eq]
          rw [← huid]
          exact hnou.2 m hm
        rw [hfilter, List.nil_append]
        have hone : List.filter (fun m => m.user == uid) [m0] = [m0] := by
          simp [huid]
        rw [hone]
        exact ⟨hp0, hn0, trivial⟩
      · have hone : List.filter (fun m => m.user == uid) [m0] = [] := by
          simp [huid]
        rw [hone, List.append_nil]
        exact hchain uid
  | some tl =>
    have hmem : tl ∈ db ∧ tl.user = m0.user := by
      rcases latestPick_go_mem m0.user db none tl hlat with h2 | h2
      · exact Option.noConfusion h2
      · exact h2
    have hmax : ∀ m ∈ db, m.user = m0.user → m.createdAt ≤ tl.createdAt :=
      (latestPick_go_max m0.user db none tl hlat).2
    rw [saveNewMessage, hlat]
    refine ⟨?_, ?_, ?_⟩
    · intro m hm
      rcases List.mem_append.mp hm with hm2 | hm2
      · rw [updMsg] at hm2
        obtain ⟨x, hx, rfl⟩ := List.mem_map.mp hm2
        have h2 := hb x hx
        by_cases hxi : x.id = tl.id
        · rw [if_pos hxi]
          exact ⟨h2.1, (by omega : x.createdAt < k + 1)⟩
        · rw [if_neg hxi]
          exact ⟨h2.1, (by omega : x.createdAt < k + 1)⟩
      · obtain rfl : m = { m0 with previousMessage := some tl.id } := by simpa using hm2
        refine ⟨?_, ?_⟩
        · show m0.id = m0.createdAt
          rw [h0, h1]
        · show m0.createdAt < k + 1
          omega
    · rw [List.pairwise_append]
      refine ⟨?_, by simp, ?_⟩
      · rw [updMsg, List.pairwise_map]
        refine hpair.imp ?_
        intro a c hac
        by_cases ha2 : a.id = tl.id <;> by_cases hc2 : c.id = tl.id <;>
          simp [ha2, hc2] <;> exact hac
      · intro a ha m hm2
        obtain rfl : m = { m0 with previousMessage := some tl.id } := by simpa using hm2
        rw [updMsg] at ha
        obtain ⟨x, hx, rfl⟩ := List.mem_map.mp ha
        have h2 := (hb x hx).2
        by_cases hxi : x.id = tl.id
        · rw [if_pos hxi]
          exact (by omega : x.createdAt < m0.createdAt)
        · rw [if_neg hxi]
          exact (by omega : x.createdAt < m0.createdAt)
    · intro uid
      rw [List.filter_append]
      have hcomm : List.filter (fun m => m.user == uid)
          (updMsg tl.id (fun x => { x with nextMessage := some m0.id }) db) =
          (db.filter (fun m => m.user == uid)).map
            (fun x => if x.id = tl.id then { x with nextMessage := some m0.id } else x) := by
        rw [updMsg, List.filter_map]
        have hpred : ((fun m : Msg => m.user == uid) ∘
            (fun x => if x.id = tl.id then { x with nextMessage := some m0.id } else x)) =
            (fun m : Msg => m.user == uid) := by
          funext x
          by_cases hxi : x.id = tl.id <;> simp [Function.comp, hxi]
        rw [hpred]
      rw [hcomm]
      by_cases huid : m0.user = uid
      · subst huid
        have htl_l : tl ∈ db.filter (fun m => m.user == m0.user) :=
          List.mem_filter.mpr ⟨hmem.1, by simp [hmem.2]⟩
        have hlpair : (db.filter (fun m => m.user == m0.user)).Pairwise
            (fun a b => a.createdAt < b.createdAt) := hpair.filter _
        have hlmax : ∀ x ∈ db.filter (fun m => m.user == m0.user),
            x.createdAt ≤ tl.createdAt := fun x hx =>
          hmax x (List.mem_of_mem_filter hx) (by simpa using List.of_mem_filter hx)
        have hlast : (db.filter (fun m => m.user == m0.user)).getLast? = some tl :=
          pairwise_lt_getLast _ tl hlpair htl_l hlmax
        have hdecomp : (db.filter (fun m => m.user == m0.user)).dropLast ++ [tl] =
            db.filter (fun m => m.user == m0.user) :=
          List.dropLast_append_getLast? tl hlast
        have hlids : (db.filter (fun m => m.user == m0.user)).Pairwise
            (fun a b => a.id ≠ b.id) := hids.filter _
        have hdrop_ne : ∀ x ∈ (db.filter (fun m => m.user == m0.user)).dropLast,
            x.id ≠ tl.id := by
          intro x hx
          have h2 := hlids
          rw [← hdecomp, List.pairwise_append] at h2
          exact h2.2.2 x hx tl (List.mem_singleton_self _)
        have hmapl : (db.filter (fun m => m.user == m0.user)).map
            (fun x => if x.id = tl.id then { x with nextMessage := some m0.id } else x) =
            (db.filter (fun m => m.user == m0.user)).dropLast ++
              [{ tl with nextMessage := some m0.id }] := by
          conv_lhs => rw [← hdecomp]
          rw [List.map_append]
          congr 1
          · refine (List.map_congr_left ?_).trans (List.map_id _)
            intro x hx
            rw [if_neg (hdrop_ne x hx)]
            rfl
          · simp
        have hfil1 : List.filter (fun m => m.user == m0.user)
            [{ m0 with previousMessage := some tl.id }] =
            [{ m0 with previousMessage := some tl.id }] := by
          simp
        rw [hmapl, hfil1]
        have hch := hchain m0.user
        rw [← hdecomp] at hch
        obtain ⟨hch1, hch2, hch3⟩ :=
          chainSeg_snoc_elim (db.filter (fun m => m.user == m0.user)).dropLast
            none none tl hch
        refine chainSeg_snoc_intro _ none none _ ?_ ?_ ?_
        · refine chainSeg_snoc_intro _ none _ _ ?_ ?_ ?_
          · exact hch1
          · exact hch2
          · rfl
        · rw [lastIdFrom_concat]
        · exact hn0
      · have hone : List.filter (fun m => m.user == uid)
            [{ m0 with previousMessage := some tl.id }] = [] := by
          simp [huid]
        rw [hone, List.append_nil]
        have hidmap : (db.filter (fun m => m.user == uid)).map
            (fun x => if x.id = tl.id then { x with nextMessage := some m0.id } else x) =
            db.filter (fun m => m.user == uid) := by
          refine (List.map_congr_left ?_).trans (List.map_id _)
          intro x hx
          by_cases hxi : x.id = tl.id
          · exfalso
            have hxdb := List.mem_of_mem_filter hx
            have hxu : x.user = uid := by simpa using List.of_mem_filter hx
            have hxtl : x = tl := eq_of_mem_pairwise_ids hids hxdb hmem.1 hxi
            rw [hxtl] at hxu
            rw [hmem.2] at hxu
            exact huid hxu
          · rw [if_neg hxi]
            rfl
        rw [hidmap]
        exact hchain uid

theorem runInsertsGo_WF :
    ∀ (uids : List Nat) (k : Nat) (db : List Msg),
      msgWF k db → msgWF (k + uids.length) (runInsertsGo k db uids) := by
  intro uids
  induction uids with
  | nil =>
    intro k db h
    simpa [runInsertsGo] using h
  | cons u rest ih =>
    intro k db h
    rw [runInsertsGo]
    have h2 := saveNewMessage_WF k
      { id := k, body := [], user := u, createdAt := k,
        previousMessage := none, nextMessage := none } db rfl rfl rfl rfl h
    have h3 := ih (k + 1) _ h2
    have he : k + (u :: rest).length = (k + 1) + rest.length := by
      simp [List.length_cons]
      omega
    rw [he]
    exact h3

theorem runInserts_WF (uids : List Nat) : msgWF uids.length (runInserts uids) := by
  have h0 : msgWF 0 ([] : List Msg) :=
    ⟨fun m hm => by simp at hm, List.Pairwise.nil, fun uid => trivial⟩
  simpa using runInsertsGo_WF uids 0 [] h0

/-- C2: after any sequence of sequential inserts (each one running the
pre-save linking middleware `saveNewMessage`, with fresh ids and strictly
increasing creation times), for every user: the user's messages, in store
order, have strictly increasing creation times (creation order); following
`nextMessage` from the head record visits exactly those messages once, in
creation order; and following `previousMessage` from the tail yields exactly
the reverse order.  Each step resolves the link through `findById` on the
store, and the fuel `db.length` bounds the walk by the store size. -/
theorem message_chain_traversal (uids : List Nat) (uid : Nat) :
    ((runInserts uids).filter (fun m => m.user == uid)).Pairwise
      (fun a b => a.createdAt < b.createdAt) ∧
    traverseNext (runInserts uids) (runInserts uids).length
      ((runInserts uids).filter (fun m => m.user == uid)).head? =
      (runInserts uids).filter (fun m => m.user == uid) ∧
    traversePrev (runInserts uids) (runInserts uids).length
      ((runInserts uids).filter (fun m => m.user == uid)).getLast? =
      ((runInserts uids).filter (fun m => m.user == uid)).reverse := by
  obtain ⟨hb, hpair, hchain⟩ := runInserts_WF uids
  have hids : (runInserts uids).Pairwise (fun a b => a.id ≠ b.id) :=
    hpair.imp_of_mem (fun {a b} ha hb2 hlt => by
      have e1 := (hb a ha).1
      have e2 := (hb b hb2).1
      omega)
  have hfind : ∀ m ∈ (runInserts uids).filter (fun m => m.user == uid),
      findById m.id (runInserts uids) = some m := fun m hm =>
    findById_self (runInserts uids) hids m (List.mem_of_mem_filter hm)
  have hlen : ((runInserts uids).filter (fun m => m.user == uid)).length ≤
      (runInserts uids).length := List.length_filter_le _ _
  refine ⟨hpair.filter _, ?_, ?_⟩
  · exact traverseNext_of_chainSeg (runInserts uids) _ none _ (hchain uid) hfind hlen
  · have hflip := chainSeg_flip _ none none (hchain uid)
    have hfindL : ∀ m2 ∈ (((runInserts uids).filter
          (fun m => m.user == uid)).map flipMsg).reverse,
        findById m2.id ((runInserts uids).map flipMsg) = some m2 := by
      intro m2 hm2
      rw [List.mem_reverse] at hm2
      obtain ⟨m, hm, rfl⟩ := List.mem_map.mp hm2
      rw [show (flipMsg m).id = m.id from rfl, findById_map_flip, hfind m hm]
      rfl
    have hlenL : ((((runInserts uids).filter
          (fun m => m.user == uid)).map flipMsg).reverse).length ≤
        ((runInserts uids).map flipMsg).length := by
      simp only [List.length_reverse, List.length_map]
      exact hlen
    have htrav := traverseNext_of_chainSeg ((runInserts uids).map flipMsg) _
      none (((runInserts uids).map flipMsg)).length hflip hfindL hlenL
    have hhead : ((((runInserts uids).filter
          (fun m => m.user == uid)).map flipMsg).reverse).head? =
        (((runInserts uids).filter (fun m => m.user == uid)).getLast?).map flipMsg := by
      rw [List.head?_reverse, getLast?_map_msg]
    rw [hhead] at htrav
    have hfuel : ((runInserts uids).map flipMsg).length = (runInserts uids).length := by
      simp
    rw [hfuel] at htrav
    rw [traversePrev_eq_flip, htrav]
    rw [← List.map_reverse, List.map_map]
    have hcomp : (flipMsg ∘ flipMsg) = fun m : Msg => m := by
      funext m
      exact flipMsg_flipMsg m
    rw [hcomp, List.map_id']

/-- An operation of the sequential service runner: a `postMessage` or a
`deleteMessage` call. -/
inductive Op
  | post (uid : Nat) (body : List Char)
  | del (mid : Nat)
  deriving Repr, DecidableEq

/-- Whether an operation is a post (used to state delete-free runs
decidably). -/
def isPost : Op → Bool
  | .post _ _ => true
  | .del _ => false

/-- The environment of a normal run: Redis reachable, inserts succeed. -/
def envOk : Env := { mode := .ok, insertOk := true }

/-- Execute one service call against the state. -/
def stepOp (cfg : Config) (st : St) : Op → St
  | .post uid b => (postMessage cfg envOk (some uid) (some b) st).2
  | .del mid => (deleteMessage (some mid) st).2

/-- One millisecond passes between sequential calls. -/
def tick (st : St) : St := { st with now := st.now + 1 }

/-- Run a sequence of sequential service calls. -/
def runOps (cfg : Config) : St → List Op → St
  | st, [] => st
  | st, op :: rest => runOps cfg (tick (stepOp cfg st op)) rest

/-- Number of message records owned by a user. -/
def countOwned (uid : Nat) (db : List Msg) : Nat :=
  db.countP (fun m => m.user == uid)

/-- The state invariant behind the postCount part of C7: distinct message
ids, ids below the id source and creation times below the clock, and every
user's `postCount` equal to the number of messages they own. -/
def stInv (st : St) : Prop :=
  st.msgs.Pairwise (fun a b => a.id ≠ b.id) ∧
  (∀ m ∈ st.msgs, m.id < st.nextId ∧ m.createdAt < st.now) ∧
  (∀ u ∈ st.users, u.postCount = (countOwned u.id st.msgs : Int))

/-- The stronger invariant that additionally tracks `lastPostAt`; it is
preserved by posts but not by deletes. -/
def stInvLast (st : St) : Prop :=
  stInv st ∧
  ∀ u ∈ st.users, u.lastPostAt = (findLatestMessage u.id st.msgs).map Msg.createdAt

theorem countOwned_updMsg (i : Nat) (f : Msg → Msg) (hf : ∀ m, (f m).user = m.user)
    (db : List Msg) (uid : Nat) :
    countOwned uid (updMsg i f db) = countOwned uid db := by
  rw [updMsg, countOwned, countOwned, List.countP_map]
  congr 1
  funext x
  by_cases h : x.id = i <;> simp [Function.comp, h, hf]

/-- `eraseP` by id removes exactly the record `findById` locates. -/
theorem countOwned_eraseP (i : Nat) :
    ∀ (db : List Msg) (m : Msg), findById i db = some m → ∀ uid,
      countOwned uid db =
        countOwned uid (db.eraseP (fun x => x.id == i)) +
          (if m.user = uid then 1 else 0) := by
  intro db
  induction db with
  | nil => intro m hm uid; exact Option.noConfusion hm
  | cons a l ih =>
    intro m hm uid
    by_cases hai : a.id = i
    · have hma : a = m := by
        rw [findById, List.find?_cons_of_pos _ (by simp [hai])] at hm
        injection hm
      subst hma
      rw [List.eraseP_cons_of_pos (by simp [hai])]
      simp only [countOwned, List.countP_cons]
      by_cases hu : a.user = uid <;> simp [hu]
    · rw [findById, List.find?_cons_of_neg _ (by simp [hai])] at hm
      rw [List.eraseP_cons_of_neg (by simp [hai])]
      have hrec := ih m hm uid
      simp only [countOwned, List.countP_cons] at hrec ⊢
      by_cases h1 : a.user = uid <;> by_cases h2 : m.user = uid <;>
        simp [h1, h2] at hrec ⊢ <;> omega

theorem countOwned_saveNewMessage (m0 : Msg) (db : List Msg) (uid : Nat) :
    countOwned uid (saveNewMessage m0 db).2 =
      countOwned uid db + (if m0.user = uid then 1 else 0) := by
  rw [saveNewMessage]
  cases hlat : findLatestMessage m0.user db with
  | none =>
    rw [countOwned, List.countP_append, ← countOwned]
    congr 1
    by_cases hu : m0.user = uid <;> simp [countOwned, hu]
  | some tl =>
    have h1 := countOwned_updMsg tl.id
      (fun x => { x with nextMessage := some m0.id }) (fun _ => rfl) db uid
    simp only [countOwned, List.countP_append] at h1 ⊢
    rw [h1]
    congr 1
    by_cases hu : m0.user = uid <;> simp [hu]

theorem mem_saveNewMessage (m0 : Msg) (db : List Msg) (m : Msg)
    (hm : m ∈ (saveNewMessage m0 db).2) :
    (m.id = m0.id ∧ m.user = m0.user ∧ m.createdAt = m0.createdAt) ∨
    (∃ x ∈ db, m.id = x.id ∧ m.user = x.user ∧ m.createdAt = x.createdAt) := by
  rw [saveNewMessage] at hm
  cases hlat : findLatestMessage m0.user db with
  | none =>
    rw [hlat] at hm
    rcases List.mem_append.mp hm with h | h
    · exact Or.inr ⟨m, h, rfl, rfl, rfl⟩
    · obtain rfl : m = m0 := by simpa using h
      exact Or.inl ⟨rfl, rfl, rfl⟩
  | some tl =>
    rw [hlat] at hm
    rcases List.mem_append.mp hm with h | h
    · rw [updMsg] at h
      obtain ⟨x, hx, rfl⟩ := List.mem_map.mp h
      refine Or.inr ⟨x, hx, ?_, ?_, ?_⟩ <;>
        (by_cases hxi : x.id = tl.id <;> simp [hxi])
    · obtain rfl : m = { m0 with previousMessage := some tl.id } := by simpa using h
      exact Or.inl ⟨rfl, rfl, rfl⟩

theorem saveNewMessage_pairwise_ids (m0 : Msg) (db : List Msg)
    (hids : db.Pairwise (fun a b => a.id ≠ b.id))
    (hnew : ∀ m ∈ db, m.id ≠ m0.id) :
    (saveNewMessage m0 db).2.Pairwise (fun a b => a.id ≠ b.id) := by
  rw [saveNewMessage]
  cases hlat : findLatestMessage m0.user db with
  | none =>
    rw [List.pairwise_append]
    refine ⟨hids, by simp, ?_⟩
    intro a ha m hm
    obtain rfl : m = m0 := by simpa using hm
    exact hnew a ha
  | some tl =>
    rw [List.pairwise_append]
    refine ⟨pairwise_ids_updMsg tl.id
      (fun x => { x with nextMessage := some m0.id }) (fun _ => rfl) db hids,
      by simp, ?_⟩
    intro a ha m hm
    obtain rfl : m = { m0 with previousMessage := some tl.id } := by simpa using hm
    rw [updMsg] at ha
    obtain ⟨x, hx, rfl⟩ := List.mem_map.mp ha
    have h2 := hnew x hx
    by_cases hxi : x.id = tl.id
    · rw [if_pos hxi]
      exact h2
    · rw [if_neg hxi]
      exact h2

theorem latestPick_go_map (uid : Nat) (g : Msg → Msg)
    (hu : ∀ m, (g m).user = m.user) (hc : ∀ m, (g m).createdAt = m.createdAt) :
    ∀ (db : List Msg) (acc : Option Msg),
      (db.map g).foldl (latestPick uid) (acc.map g) =
        (db.foldl (latestPick uid) acc).map g := by
  intro db
  induction db with
  | nil => intro acc; rfl
  | cons a l ih =>
    intro acc
    rw [List.map_cons, List.foldl_cons, List.foldl_cons]
    have hstep : latestPick uid (acc.map g) (g a) = (latestPick uid acc a).map g := by
      cases acc with
      | none =>
        show latestPick uid none (g a) = (latestPick uid none a).map g
        rw [latestPick_none, latestPick_none, hu a]
        by_cases h : a.user = uid <;> simp [h]
      | some c =>
        show latestPick uid (some (g c)) (g a) = (latestPick uid (some c) a).map g
        rw [latestPick_some, latestPick_some, hu a, hc a, hc c]
        by_cases h : a.user = uid
        · by_cases h2 : a.createdAt > c.createdAt <;> simp [h, h2]
        · simp [h]
    rw [hstep, ih]

theorem findLatest_updMsg (uid i : Nat) (f : Msg → Msg)
    (hu : ∀ m, (f m).user = m.user) (hc : ∀ m, (f m).createdAt = m.createdAt)
    (db : List Msg) :
    findLatestMessage uid (updMsg i f db) =
      (findLatestMessage uid db).map (fun m => if m.id = i then f m else m) := by
  rw [updMsg, findLatestMessage, findLatestMessage]
  have h := latestPick_go_map uid (fun m => if m.id = i then f m else m)
    (fun m => by by_cases h : m.id = i <;> simp [h, hu])
    (fun m => by by_cases h : m.id = i <;> simp [h, hc]) db none
  simpa using h

theorem findLatest_snoc (uid : Nat) (db : List Msg) (y : Msg) :
    findLatestMessage uid (db ++ [y]) =
      latestPick uid (findLatestMessage uid db) y := by
  rw [findLatestMessage, findLatestMessage, List.foldl_append]
  rfl

/-- Saving a strictly newer message makes it the owner's latest-by-creation
record and leaves every other user's latest creation time unchanged. -/
theorem findLatest_saveNewMessage (m0 : Msg) (db : List Msg) (uid : Nat)
    (hlt : ∀ m ∈ db, m.createdAt < m0.createdAt) :
    (findLatestMessage uid (saveNewMessage m0 db).2).map Msg.createdAt =
      if m0.user = uid then some m0.createdAt
      else (findLatestMessage uid db).map Msg.createdAt := by
  have hbound : ∀ b, findLatestMessage uid db = some b → b.createdAt < m0.createdAt := by
    intro b hb
    rcases latestPick_go_mem uid db none b hb with h | h
    · exact Option.noConfusion h
    · exact hlt b h.1
  rw [saveNewMessage]
  cases hlat : findLatestMessage m0.user db with
  | none =>
    rw [findLatest_snoc]
    cases hl2 : findLatestMessage uid db with
    | none =>
      show (latestPick uid none _).map Msg.createdAt = _
      rw [latestPick_none]
      by_cases hu : m0.user = uid <;> simp [hu]
    | some b =>
      show (latestPick uid (some b) _).map Msg.createdAt = _
      rw [latestPick_some]
      have hgt : b.createdAt < m0.createdAt := hbound b hl2
      by_cases hu : m0.user = uid <;> simp [hu, hgt]
  | some tl =>
    rw [findLatest_snoc,
      findLatest_updMsg uid tl.id (fun x => { x with nextMessage := some m0.id })
        (fun _ => rfl) (fun _ => rfl) db]
    cases hl2 : findLatestMessage uid db with
    | none =>
      show (latestPick uid none _).map Msg.createdAt = _
      rw [latestPick_none]
      by_cases hu : m0.user = uid <;> simp [hu]
    | some b =>
      show (latestPick uid (some (if b.id = tl.id
          then { b with nextMessage := some m0.id } else b)) _).map Msg.createdAt = _
      rw [latestPick_some]
      have hgt : b.createdAt < m0.createdAt := hbound b hl2
      have hbc : (if b.id = tl.id
          then { b with nextMessage := some m0.id } else b).createdAt = b.createdAt := by
        by_cases hb2 : b.id = tl.id <;> simp [hb2]
      by_cases hu : m0.user = uid <;> simp [hu, hbc, hgt]

theorem countOwned_map (G : Msg → Msg) (hG : ∀ m, (G m).user = m.user)
    (db : List Msg) (uid : Nat) :
    countOwned uid (db.map G) = countOwned uid db := by
  rw [countOwned, countOwned, List.countP_map]
  congr 1
  funext x
  simp [Function.comp, hG]

theorem updMsg_bounds (i : Nat) (f : Msg → Msg)
    (hid : ∀ y, (f y).id = y.id) (hcr : ∀ y, (f y).createdAt = y.createdAt)
    (db : List Msg) (N T : Nat) (hb : ∀ y ∈ db, y.id < N ∧ y.createdAt < T) :
    ∀ x ∈ updMsg i f db, x.id < N ∧ x.createdAt < T := by
  intro x hx
  rw [updMsg] at hx
  obtain ⟨y, hy, rfl⟩ := List.mem_map.mp hx
  by_cases h : y.id = i
  · rw [if_pos h, hid y, hcr y]
    exact hb y hy
  · rw [if_neg h]
    exact hb y hy

/-- The possible result states of one `postMessage` call: unchanged (thrown
validation or not-found error), counters-only change (rate-limited reply, or
internal insert failure after the counter increment), or the full successful
post (counter incremented, message saved and linked, user stats updated,
fresh id consumed). -/
theorem postMessage_state_cases (cfg : Config) (env : Env) (uid : Nat) (b : List Char)
    (st : St) :
    (postMessage cfg env (some uid) (some b) st).2 = st ∨
    (postMessage cfg env (some uid) (some b) st).2 =
      { st with counters := (checkAndRecordRequest cfg env.mode st.now uid st.counters).2 } ∨
    (postMessage cfg env (some uid) (some b) st).2 =
      { st with
        counters := (checkAndRecordRequest cfg env.mode st.now uid st.counters).2,
        msgs := (saveNewMessage
          { id := st.nextId, body := jsTrim b, user := uid, createdAt := st.now,
            previousMessage := none, nextMessage := none } st.msgs).2,
        users := applyPostSave uid st.now st.users,
        nextId := st.nextId + 1 } := by
  by_cases hb : b = []
  · left
    simp [postMessage, hb]
  · by_cases ht : (jsTrim b).length = 0
    · left
      simp [postMessage, hb, ht]
    · by_cases hl : b.length > 1000
      · left
        simp [postMessage, hb, ht, hl]
      · cases hf : findUser uid st.users with
        | none =>
          left
          simp [postMessage, hb, ht, hl, hf]
        | some u =>
          by_cases hL : (checkAndRecordRequest cfg env.mode st.now uid
              st.counters).1.isLimited
          · right; left
            simp [postMessage, hb, ht, hl, hf, hL]
          · by_cases hI : env.insertOk
            · right; right
              simp [postMessage, hb, ht, hl, hf, hL, hI]
            · right; left
              simp [postMessage, hb, ht, hl, hf, hL, hI]

theorem stInv_post (cfg : Config) (uid : Nat) (b : List Char) (st : St)
    (h : stInv st) : stInv (tick (stepOp cfg st (.post uid b))) := by
  obtain ⟨h1, h2, h3⟩ := h
  rcases postMessage_state_cases cfg envOk uid b st with hc | hc | hc <;>
    rw [stepOp, hc]
  · exact ⟨h1, fun m hm => ⟨(h2 m hm).1,
      show m.createdAt < st.now + 1 by have := (h2 m hm).2; omega⟩, h3⟩
  · exact ⟨h1, fun m hm => ⟨(h2 m hm).1,
      show m.createdAt < st.now + 1 by have := (h2 m hm).2; omega⟩, h3⟩
  · set m0 : Msg :=
      { id := st.nextId, body := jsTrim b, user := uid, createdAt := st.now,
        previousMessage := none, nextMessage := none } with hm0
    refine ⟨?_, ?_, ?_⟩
    · exact saveNewMessage_pairwise_ids _ _ h1
        (fun m hm => show m.id ≠ st.nextId by have := (h2 m hm).1; omega)
    · intro m hm
      rcases mem_saveNewMessage m0 st.msgs m hm with ⟨hid, hu, hc2⟩ | ⟨x, hx, hid, hu, hc2⟩
      · have hid2 : m.id = st.nextId := hid
        have hc3 : m.createdAt = st.now := hc2
        exact ⟨show m.id < st.nextId + 1 by omega,
          show m.createdAt < st.now + 1 by omega⟩
      · have hb2 := h2 x hx
        exact ⟨show m.id < st.nextId + 1 by omega,
          show m.createdAt < st.now + 1 by omega⟩
    · intro u hu
      have hu2 : u ∈ applyPostSave uid st.now st.users := hu
      rw [applyPostSave, updUser] at hu2
      obtain ⟨u0, hu0, rfl⟩ := List.mem_map.mp hu2
      have hcnt := h3 u0 hu0
      by_cases huid : u0.id = uid
      · rw [if_pos huid]
        show u0.postCount + 1 = (countOwned u0.id ((saveNewMessage m0 st.msgs).2) : Int)
        rw [countOwned_saveNewMessage m0 st.msgs u0.id,
          if_pos (show m0.user = u0.id from huid.symm)]
        push_cast
        omega
      · rw [if_neg huid]
        show u0.postCount = (countOwned u0.id ((saveNewMessage m0 st.msgs).2) : Int)
        rw [countOwned_saveNewMessage m0 st.msgs u0.id,
          if_neg (show ¬ m0.user = u0.id from fun he => huid he.symm)]
        push_cast
        omega

/-- Core of the delete step: erasing the located record from a link-rewritten
(id-, user- and time-preserving) copy of the store and decrementing the
owner's count preserves the invariant. -/
theorem stInv_deleteCore (st : St) (mid : Nat) (m m1 : Msg) (msgs1 : List Msg)
    (hpair1 : msgs1.Pairwise (fun a c => a.id ≠ c.id))
    (hmem1 : ∀ x ∈ msgs1, x.id < st.nextId ∧ x.createdAt < st.now)
    (hcnt1 : ∀ uid, countOwned uid msgs1 = countOwned uid st.msgs)
    (hfind1 : findById mid msgs1 = some m1) (huser1 : m1.user = m.user)
    (h3 : ∀ u ∈ st.users, u.postCount = (countOwned u.id st.msgs : Int)) :
    stInv (tick
      { st with
        msgs := msgs1.eraseP (fun x => x.id == mid),
        users := updUser m.user
          (fun u => { u with postCount := u.postCount - 1 }) st.users }) := by
  refine ⟨?_, ?_, ?_⟩
  · exact hpair1.sublist (List.eraseP_sublist _)
  · intro x hx
    have hx2 := List.mem_of_mem_eraseP hx
    have hb2 := hmem1 x hx2
    exact ⟨show x.id < st.nextId by omega, show x.createdAt < st.now + 1 by omega⟩
  · intro u hu
    have hu2 : u ∈ updUser m.user
        (fun u => { u with postCount := u.postCount - 1 }) st.users := hu
    rw [updUser] at hu2
    obtain ⟨u0, hu0, rfl⟩ := List.mem_map.mp hu2
    have hcnt := h3 u0 hu0
    have herase := countOwned_eraseP mid msgs1 m1 hfind1 u0.id
    rw [hcnt1 u0.id, huser1] at herase
    by_cases huid : u0.id = m.user
    · rw [if_pos huid]
      show u0.postCount - 1 =
        (countOwned u0.id (msgs1.eraseP (fun x => x.id == mid)) : Int)
      rw [if_pos huid.symm] at herase
      omega
    · rw [if_neg huid]
      show u0.postCount =
        (countOwned u0.id (msgs1.eraseP (fun x => x.id == mid)) : Int)
      rw [if_neg (fun he => huid he.symm)] at herase
      omega

theorem stInv_del (cfg : Config) (mid : Nat) (st : St)
    (h : stInv st) : stInv (tick (stepOp cfg st (.del mid))) := by
  obtain ⟨h1, h2, h3⟩ := h
  rw [stepOp]
  cases hf : findById mid st.msgs with
  | none =>
    rw [deleteMessage, hf]
    exact ⟨h1, fun m hm => ⟨(h2 m hm).1,
      show m.createdAt < st.now + 1 by have := (h2 m hm).2; omega⟩, h3⟩
  | some m =>
    rw [deleteMessage, hf]
    obtain ⟨mi, mb, mu, mc, mp, mn⟩ := m
    set m : Msg :=
      { id := mi, body := mb, user := mu, createdAt := mc,
        previousMessage := mp, nextMessage := mn } with hmdef
    rcases mp with _ | p <;> rcases mn with _ | n
    · exact stInv_deleteCore st mid m m st.msgs h1 h2 (fun _ => rfl) hf rfl h3
    · refine stInv_deleteCore st mid m _ _
        (pairwise_ids_updMsg n (fun x => { x with previousMessage := none })
          (fun _ => rfl) st.msgs h1)
        (updMsg_bounds n (fun x => { x with previousMessage := none })
          (fun _ => rfl) (fun _ => rfl) st.msgs _ _ h2)
        (fun uid => countOwned_updMsg n (fun x => { x with previousMessage := none })
          (fun _ => rfl) st.msgs uid)
        (by rw [findById_updMsg n mid
          (fun x => { x with previousMessage := none }) (fun _ => rfl) st.msgs, hf]; rfl)
        ?_ h3
      by_cases hmn : m.id = n <;> simp [hmn]
    · refine stInv_deleteCore st mid m _ _
        (pairwise_ids_updMsg p (fun x => { x with nextMessage := none })
          (fun _ => rfl) st.msgs h1)
        (updMsg_bounds p (fun x => { x with nextMessage := none })
          (fun _ => rfl) (fun _ => rfl) st.msgs _ _ h2)
        (fun uid => countOwned_updMsg p (fun x => { x with nextMessage := none })
          (fun _ => rfl) st.msgs uid)
        (by rw [findById_updMsg p mid
          (fun x => { x with nextMessage := none }) (fun _ => rfl) st.msgs, hf]; rfl)
        ?_ h3
      by_cases hmp : m.id = p <;> simp [hmp]
    · refine stInv_deleteCore st mid m _ _
        (pairwise_ids_updMsg n (fun x => { x with previousMessage := some p })
          (fun _ => rfl) _
          (pairwise_ids_updMsg p (fun x => { x with nextMessage := some n })
            (fun _ => rfl) st.msgs h1))
        (updMsg_bounds n (fun x => { x with previousMessage := some p })
          (fun _ => rfl) (fun _ => rfl) _ _ _
          (updMsg_bounds p (fun x => { x with nextMessage := some n })
            (fun _ => rfl) (fun _ => rfl) st.msgs _ _ h2))
        (fun uid => by
          rw [countOwned_updMsg n (fun x => { x with previousMessage := some p })
              (fun _ => rfl),
            countOwned_updMsg p (fun x => { x with nextMessage := some n })
              (fun _ => rfl)])
        (by
          rw [findById_updMsg n mid
              (fun x => { x with previousMessage := some p }) (fun _ => rfl),
            findById_updMsg p mid
              (fun x => { x with nextMessage := some n }) (fun _ => rfl) st.msgs, hf]
          rfl)
        ?_ h3
      by_cases hmp : m.id = p <;> by_cases hmn : m.id = n <;> simp [hmp, hmn]

theorem stInvLast_post (cfg : Config) (uid : Nat) (b : List Char) (st : St)
    (h : stInvLast st) : stInvLast (tick (stepOp cfg st (.post uid b))) := by
  obtain ⟨hinv, hlast⟩ := h
  refine ⟨stInv_post cfg uid b st hinv, ?_⟩
  obtain ⟨h1, h2, h3⟩ := hinv
  rcases postMessage_state_cases cfg envOk uid b st with hc | hc | hc <;>
    rw [stepOp, hc]
  · exact hlast
  · exact hlast
  · set m0 : Msg :=
      { id := st.nextId, body := jsTrim b, user := uid, createdAt := st.now,
        previousMessage := none, nextMessage := none } with hm0
    intro u hu
    have hu2 : u ∈ applyPostSave uid st.now st.users := hu
    rw [applyPostSave, updUser] at hu2
    obtain ⟨u0, hu0, rfl⟩ := List.mem_map.mp hu2
    have hflat := findLatest_saveNewMessage m0 st.msgs u0.id
      (fun m hm => (h2 m hm).2)
    by_cases huid : u0.id = uid
    · rw [if_pos huid]
      show some st.now =
        (findLatestMessage u0.id ((saveNewMessage m0 st.msgs).2)).map Msg.createdAt
      rw [hflat, if_pos (show m0.user = u0.id from huid.symm)]
    · rw [if_neg huid]
      show u0.lastPostAt =
        (findLatestMessage u0.id ((saveNewMessage m0 st.msgs).2)).map Msg.createdAt
      rw [hflat, if_neg (show ¬ m0.user = u0.id from fun he => huid he.symm)]
      exact hlast u0 hu0

theorem stInv_run (cfg : Config) :
    ∀ (ops : List Op) (st : St), stInv st → stInv (runOps cfg st ops) := by
  intro ops
  induction ops with
  | nil => intro st h; exact h
  | cons op rest ih =>
    intro st h
    rw [runOps]
    refine ih _ ?_
    cases op with
    | post uid b => exact stInv_post cfg uid b st h
    | del mid => exact stInv_del cfg mid st h

theorem stInvLast_run (cfg : Config) :
    ∀ (ops : List Op) (st : St), ops.all isPost = true → stInvLast st →
      stInvLast (runOps cfg st ops) := by
  intro ops
  induction ops with
  | nil => intro st _ h; exact h
  | cons op rest ih =>
    intro st hall h
    rw [List.all_cons, Bool.and_eq_true] at hall
    rw [runOps]
    refine ih _ hall.2 ?_
    cases op with
    | post uid b => exact stInvLast_post cfg uid b st h
    | del mid => exact absurd hall.1 (by simp [isPost])

theorem stInv_initSt (uids : List Nat) : stInv (initSt uids) := by
  refine ⟨List.Pairwise.nil, fun m hm => by simp [initSt] at hm, ?_⟩
  intro u hu
  rw [initSt] at hu
  obtain ⟨x, hx, rfl⟩ := List.mem_map.mp hu
  rfl

/-- C7 (amended): after any sequence of sequential `postMessage` and
`deleteMessage` operations from an initial state, every user's `postCount`
equals the number of message records they own; and, provided the sequence
contains no delete, every user's `lastPostAt` equals the `createdAt` of their
most recent message, or null if they never posted.  (`deleteMessage`
decrements `postCount` but never maintains `lastPostAt`, so the `lastPostAt`
half of the claim fails once deletes occur — see the counterexample.) -/
theorem postCount_lastPostAt_invariant (cfg : Config) (uids : List Nat)
    (ops : List Op) :
    (∀ u ∈ (runOps cfg (initSt uids) ops).users,
      u.postCount = (countOwned u.id (runOps cfg (initSt uids) ops).msgs : Int)) ∧
    (ops.all isPost = true →
      ∀ u ∈ (runOps cfg (initSt uids) ops).users,
        u.lastPostAt =
          (findLatestMessage u.id (runOps cfg (initSt uids) ops).msgs).map
            Msg.createdAt) := by
  have hlast0 : ∀ u ∈ (initSt uids).users,
      u.lastPostAt = (findLatestMessage u.id (initSt uids).msgs).map Msg.createdAt := by
    intro u hu
    rw [initSt] at hu
    obtain ⟨x, hx, rfl⟩ := List.mem_map.mp hu
    rfl
  exact ⟨(stInv_run cfg ops (initSt uids) (stInv_initSt uids)).2.2,
    fun hall => (stInvLast_run cfg ops (initSt uids) hall
      ⟨stInv_initSt uids, hlast0⟩).2⟩

/-- Witness for `postCount_lastPostAt_invariant`: one successful post by user
0 from the initial state, with the delete-free side condition discharged. -/
theorem postCount_lastPostAt_invariant_witness :
    (∀ u ∈ (runOps ⟨3600000, 10⟩ (initSt [0]) [Op.post 0 ['a']]).users,
      u.postCount = (countOwned u.id
        (runOps ⟨3600000, 10⟩ (initSt [0]) [Op.post 0 ['a']]).msgs : Int)) ∧
    (∀ u ∈ (runOps ⟨3600000, 10⟩ (initSt [0]) [Op.post 0 ['a']]).users,
      u.lastPostAt = (findLatestMessage u.id
        (runOps ⟨3600000, 10⟩ (initSt [0]) [Op.post 0 ['a']]).msgs).map
          Msg.createdAt) :=
  ⟨(postCount_lastPostAt_invariant ⟨3600000, 10⟩ [0] [Op.post 0 ['a']]).1,
   (postCount_lastPostAt_invariant ⟨3600000, 10⟩ [0] [Op.post 0 ['a']]).2
     (by decide)⟩

/-- C7, counterexample to the claim as stated: post one message as user 0,
then delete it.  `postCount` correctly returns to 0, but `lastPostAt` keeps
the deleted message's creation time (`some 0`) instead of becoming null,
although the user owns no messages at that quiescent point. -/
theorem lastPostAt_claim_false :
    (runOps ⟨3600000, 10⟩ (initSt [0]) [Op.post 0 ['a'], Op.del 0]).msgs = [] ∧
    (runOps ⟨3600000, 10⟩ (initSt [0]) [Op.post 0 ['a'], Op.del 0]).users =
      [{ id := 0, postCount := 0, lastPostAt := some 0 }] ∧
    (findLatestMessage 0 (runOps ⟨3600000, 10⟩ (initSt [0])
        [Op.post 0 ['a'], Op.del 0]).msgs).map Msg.createdAt = none ∧
    some (0 : Nat) ≠ (none : Option Nat) := by
  refine ⟨?_, ?_, ?_, ?_⟩ <;> decide

end MessageBoard
